import Mathlib

/-!
Verification development for the `cookie` crate (HTTP cookie parsing and
cookie-jar management).

Modelling conventions, applied uniformly:

* Rust `&str`/`String` values are modelled as `List Char`.  The parser and
  formatter in the crate only ever branch on ASCII characters, so the
  byte-level/char-level distinction is irrelevant to every property proved
  here; `str::trim` is modelled on the ASCII whitespace subset.
* The zero-copy `CookieStr` indexing machinery (`Indexed`/`Concrete`) is a
  representation optimization: every field of the model stores the *resolved*
  string.  `indexes_of` in `parse.rs` always succeeds on the slices the parser
  feeds it, so eliding it loses no behaviour.
* `time::Duration` is modelled by its `seconds`/`nanoseconds` pair of integers
  (`Duration.secs`, `Duration.nanos`); `OffsetDateTime` by its UTC unix
  timestamp in whole seconds (`Int`).
* External collaborators (the `percent-encoding` crate, `time`'s
  `PrimitiveDateTime::parse`, `OffsetDateTime::format`) are parameters of the
  model, exactly as the specification treats them ("trusted external
  functions").  The cryptographic primitives (HMAC, base64, AEAD) are likewise
  parameters, bundled in `HmacModel` / `AeadModel`.
* `Expiration` and the `Key` type are declared by `lib.rs`/`secure/mod.rs` but
  their defining files are not present under `src/`; they are modelled from
  the specification where so marked.
-/

/-- Model of Rust `char::is_whitespace` restricted to the ASCII whitespace
characters that can actually occur around cookie tokens. -/
def isWS (c : Char) : Bool :=
  c = ' ' || c = '\t' || c = '\n' || c = '\r'

/-- Model of `str::trim`: removes leading and trailing whitespace. -/
def trim (s : List Char) : List Char :=
  ((s.dropWhile isWS).reverse.dropWhile isWS).reverse

/-- Model of `str::split(';')` from `parse_inner`: splits a string at every
`;`, keeping empty segments; the result is always non-empty. -/
def splitSemi (s : List Char) : List (List Char) :=
  s.foldr
    (fun c acc =>
      if c = ';' then [] :: acc
      else
        match acc with
        | a :: rest => (c :: a) :: rest
        | [] => [[c]])
    [[]]

/-- Model of `str::find('=')` followed by slicing `[..i]` / `[(i+1)..]`:
splits a string at its first `=`, or returns `none` when there is none. -/
def splitFirstEq : List Char → Option (List Char × List Char)
  | [] => none
  | c :: rest =>
    if c = '=' then some ([], rest)
    else (splitFirstEq rest).map (fun p => (c :: p.1, p.2))

/-- Model of Rust `u8::to_ascii_lowercase` on chars. -/
def toAsciiLower (c : Char) : Char :=
  if 'A' ≤ c && c ≤ 'Z' then Char.ofNat (c.toNat + 32) else c

/-- Model of `str::to_ascii_lowercase`. -/
def lowerAscii (s : List Char) : List Char :=
  s.map toAsciiLower

/-- Model of `str::eq_ignore_ascii_case`. -/
def eqIgnoreAsciiCase (a b : List Char) : Bool :=
  lowerAscii a = lowerAscii b

/-- Numeric value of a list of decimal digit characters (most significant
first), as accumulated by Rust's integer `FromStr`. -/
def digitsVal (s : List Char) : Nat :=
  s.foldl (fun a c => a * 10 + (c.toNat - 48)) 0

/-- Largest `i64`, the range bound of Rust's `i64: FromStr` and the value of
`time::Duration::max_value().whole_seconds()`. -/
def i64Max : Int := 9223372036854775807

/-- Smallest `i64`. -/
def i64Min : Int := -9223372036854775808

/-- Model of `str::parse::<i64>()`: optional sign, one or more decimal
digits, value within the `i64` range; anything else is `none`. -/
def parseI64 (s : List Char) : Option Int :=
  let sign : Int := if s.head? = some '-' then -1 else 1
  let digits : List Char :=
    if s.head? = some '-' ∨ s.head? = some '+' then s.tail else s
  if digits = [] then none
  else if digits.all (fun c => c.isDigit) then
    let v : Int := sign * (digitsVal digits : Int)
    if i64Min ≤ v ∧ v ≤ i64Max then some v else none
  else none

/-- Fuel-based helper for `natDigits` (structural recursion, so that the
kernel can evaluate it); the fuel never runs out when it starts at `n`. -/
def natDigitsAux : Nat → Nat → List Char
  | 0, n => [Nat.digitChar n]
  | fuel + 1, n =>
    if n < 10 then [Nat.digitChar n]
    else natDigitsAux fuel (n / 10) ++ [Nat.digitChar (n % 10)]

/-- Decimal digit characters of a natural number, most significant first;
model of Rust's `{}` formatting for non-negative integers. -/
def natDigits (n : Nat) : List Char :=
  natDigitsAux n n

/-- Model of Rust `{}` formatting of an `i64`. -/
def intDigits (n : Int) : List Char :=
  if n < 0 then '-' :: natDigits n.natAbs else natDigits n.natAbs

/-- Model of `time::Duration`: a signed whole-second count plus a
sub-second nanosecond count.  `Duration::seconds(v)` has zero nanoseconds and
`whole_seconds` returns the `secs` field. -/
structure Duration where
  secs : Int
  nanos : Int
  deriving DecidableEq, Repr

/-- Model of `Duration::zero()`. -/
def Duration.zero : Duration := ⟨0, 0⟩

/-- Model of `Duration::seconds(v)`. -/
def Duration.seconds (v : Int) : Duration := ⟨v, 0⟩

/-- Modelled from the spec: the `Expiration` enum (`Session` | `At(datetime)`)
declared in `lib.rs` via `mod expiration`, whose source file is not present
under `src/`.  `dateTime` carries the UTC unix timestamp in seconds. -/
inductive Expiration where
  | session : Expiration
  | dateTime (t : Int) : Expiration
  deriving DecidableEq, Repr

/-- Modelled from the spec: `Expiration::map`, mapping over the date-time of
a non-session expiration. -/
def Expiration.map (f : Int → Int) : Expiration → Expiration
  | .session => .session
  | .dateTime t => .dateTime (f t)

/-- Model of the `SameSite` enum of `draft.rs`. -/
inductive SameSite where
  | strict : SameSite
  | lax : SameSite
  | none : SameSite
  | unset : SameSite
  deriving DecidableEq, Repr

/-- Model of `impl Display for SameSite` (`draft.rs`): `Strict`, `Lax`,
`None`, and the empty string for `Unset`. -/
def SameSite.display : SameSite → List Char
  | .strict => "Strict".toList
  | .lax => "Lax".toList
  | .none => "None".toList
  | .unset => []

/-- Model of the `ParseError` enum of `parse.rs` (the `Utf8Error` payload and
the hidden non-exhaustiveness marker are elided). -/
inductive ParseError where
  | missingPair : ParseError
  | emptyName : ParseError
  | utf8Error : ParseError
  deriving DecidableEq, Repr

/-- Model of the `Cookie` struct of `lib.rs`.  All string fields hold the
resolved strings (see the module comment about `CookieStr`). -/
structure Cookie where
  name : List Char
  value : List Char
  expires : Option Expiration
  max_age : Option Duration
  domain : Option (List Char)
  path : Option (List Char)
  secure : Option Bool
  http_only : Option Bool
  same_site : Option SameSite
  partitioned : Option Bool
  deriving DecidableEq, Repr

/-- Model of `Cookie::new`: given name and value, every attribute unset. -/
def Cookie.new (name value : List Char) : Cookie :=
  { name := name, value := value, expires := none, max_age := none,
    domain := none, path := none, secure := none, http_only := none,
    same_site := none, partitioned := none }

/-- Model of the accessor `Cookie::domain()`: strips one leading `.` from the
stored domain, if any. -/
def Cookie.domainAcc (c : Cookie) : Option (List Char) :=
  c.domain.map (fun d => if d.head? = some '.' then d.tail else d)

/-- Model of the accessor `Cookie::path()`. -/
def Cookie.pathAcc (c : Cookie) : Option (List Char) :=
  c.path

/-- Model of `Cookie::expires_datetime()`: the date-time of a non-session
expiration. -/
def Cookie.expires_datetime (c : Cookie) : Option Int :=
  c.expires.bind (fun e => match e with
    | .session => Option.none
    | .dateTime t => some t)

/-- Model of `Cookie::value_trimmed()` (the inner `trim_quotes`):
strips one surrounding pair of double quotes, only when the value has length
at least two and both its first and last characters are `"`. -/
def Cookie.value_trimmed (c : Cookie) : List Char :=
  if c.value.length < 2 then c.value
  else if c.value.head? = some '"' ∧ c.value.getLast? = some '"' then
    (c.value.drop 1).dropLast
  else c.value

/-- Date-format string `FMT1` tried first by the `expires` parse arm. -/
def fmtStr1 : List Char := "%a, %d %b %Y %H:%M:%S GMT".toList

/-- Second date-format string tried by the `expires` parse arm. -/
def fmtStr2 : List Char := "%A, %d-%b-%y %H:%M:%S GMT".toList

/-- Third date-format string tried by the `expires` parse arm. -/
def fmtStr3 : List Char := "%a, %d-%b-%Y %H:%M:%S GMT".toList

/-- Fourth date-format string tried by the `expires` parse arm. -/
def fmtStr4 : List Char := "%a %b %d %H:%M:%S %Y".toList

/-- Type of the external date parser (`parse_gmt_date`, delegating to the
`time` crate): value string and format string to an optional UTC timestamp. -/
def DateParse : Type := List Char → List Char → Option Int

/-- Type of the external combined percent-decode / UTF-8-decode function used
in decoding mode (`percent_decode(..).decode_utf8()` of the
`percent-encoding` collaborator): `Except` failure models a UTF-8 error. -/
def Decoder : Type := List Char → Except Unit (List Char)

/-- Model of one iteration of the attribute loop of `parse_inner`
(`parse.rs` lines 157-241), updating the cookie being built with one
`;`-separated attribute token. -/
def processAttr (pd : DateParse) (c : Cookie) (attr : List Char) : Cookie :=
  let kv : List Char × Option (List Char) :=
    match splitFirstEq attr with
    | some (k, v) => (trim k, some (trim v))
    | Option.none => (trim attr, Option.none)
  let key := lowerAscii kv.1
  if key = "secure".toList then { c with secure := some true }
  else if key = "httponly".toList then { c with http_only := some true }
  else if key = "max-age".toList then
    match kv.2 with
    | Option.none => c
    | some v =>
      match parseI64 v with
      | some val =>
        if val ≤ 0 then { c with max_age := some Duration.zero }
        else { c with max_age := some (Duration.seconds (min val i64Max)) }
      | Option.none =>
        let negDigits : Bool × List Char :=
          if v.head? = some '-' then (true, v.tail) else (false, v)
        if ¬ (negDigits.2.all (fun d => d.isDigit)) then c
        else if negDigits.1 then { c with max_age := some Duration.zero }
        else { c with max_age := some (Duration.seconds i64Max) }
  else if key = "domain".toList then
    match kv.2 with
    | some v =>
      if v = [] then c
      else if v.head? = some '.' then { c with domain := some v.tail }
      else { c with domain := some v }
    | Option.none => c
  else if key = "path".toList then
    match kv.2 with
    | some v => { c with path := some v }
    | Option.none => c
  else if key = "samesite".toList then
    match kv.2 with
    | some v =>
      if eqIgnoreAsciiCase v ("strict".toList) then
        { c with same_site := some SameSite.strict }
      else if eqIgnoreAsciiCase v ("lax".toList) then
        { c with same_site := some SameSite.lax }
      else c
    | Option.none => c
  else if key = "expires".toList then
    match kv.2 with
    | some v =>
      match (pd v fmtStr1).orElse (fun _ => (pd v fmtStr2).orElse (fun _ =>
        (pd v fmtStr3).orElse (fun _ => pd v fmtStr4))) with
      | some t => { c with expires := some (Expiration.dateTime t) }
      | Option.none => c
    | Option.none => c
  else c

/-- Model of `parse_inner` (`parse.rs` lines 110-244): splits on `;`, takes
the first segment as the `name=value` pair (failing with `MissingPair` when
it has no `=` and `EmptyName` when the trimmed name is empty), optionally
percent-decodes name and value (decoding failure modelled by `dec` returning
`.error`, mapped to `Utf8Error`), then folds the attribute loop over the remaining
segments. -/
def parse_inner (dec : Decoder) (pd : DateParse) (decode : Bool)
    (s : List Char) : Except ParseError Cookie :=
  let segs := splitSemi s
  let keyValue := segs.headD []
  let attrs := segs.tail
  match splitFirstEq keyValue with
  | Option.none => .error .missingPair
  | some (n, v) =>
    let name := trim n
    let value := trim v
    if name = [] then .error .emptyName
    else
      match (if decode then
              match dec name, dec value with
              | .ok dn, .ok dv => Except.ok (dn, dv)
              | _, _ => Except.error ParseError.utf8Error
             else Except.ok (name, value) : Except ParseError (List Char × List Char)) with
      | .error e => .error e
      | .ok (name, value) =>
        .ok (attrs.foldl (processAttr pd) (Cookie.new name value))

/-- Model of `parse_cookie` (`Cookie::parse` has `decode = false`,
`Cookie::parse_encoded` has `decode = true`); storing the backing
`cookie_string` is representation-only and elided. -/
def parse_cookie (dec : Decoder) (pd : DateParse) (decode : Bool)
    (s : List Char) : Except ParseError Cookie :=
  parse_inner dec pd decode s

instance {ε α : Type} [DecidableEq ε] [DecidableEq α] :
    DecidableEq (Except ε α) := fun a b =>
  match a, b with
  | .ok x, .ok y =>
    if h : x = y then .isTrue (by simp [h]) else .isFalse (by simp [h])
  | .ok _, .error _ => .isFalse (by simp)
  | .error _, .ok _ => .isFalse (by simp)
  | .error e, .error f =>
    if h : e = f then .isTrue (by simp [h]) else .isFalse (by simp [h])

/-- Trivial decoder instance used to exercise the model at concrete inputs
where no percent-escapes are involved. -/
def decId : Decoder := fun s => .ok s

/-- Trivial date parser instance (every date format fails) used to exercise
the model at concrete inputs that carry no `Expires` attribute. -/
def pdNone : DateParse := fun _ _ => Option.none

/-- Attribute segments written by `Cookie::fmt_parameters` (`lib.rs` lines
1198-1236), in source order, each without its leading `;` (the writes in the
source are the literals `"; HttpOnly"`, `"; SameSite={}"`, `"; Partitioned"`,
`"; Secure"`, `"; Path={}"`, `"; Domain={}"`, `"; Max-Age={}"`,
`"; Expires={}"`).  `fd` is the external date formatter (`OffsetDateTime`
formatted with `FMT1`, an RFC 1123 GMT date; `FMT1` itself lives in the
version of `parse.rs` not present under `src/` and is treated as an external
parameter).  Each write is one `chunk` function below; `attrSegs` strings
them together in source order.  This is the `; HttpOnly` write. -/
def httpChunk (o : Option Bool) : List (List Char) :=
  if o = some true then [" HttpOnly".toList] else []

/-- The `; SameSite={}` write of `fmt_parameters`, as a segment list. -/
def ssChunk (o : Option SameSite) : List (List Char) :=
  match o with
  | some ss => [" SameSite=".toList ++ ss.display]
  | Option.none => []

/-- The `; Partitioned` write of `fmt_parameters`, as a segment list. -/
def partChunk (o : Option Bool) : List (List Char) :=
  if o = some true then [" Partitioned".toList] else []

/-- The `; Secure` write of `fmt_parameters`, as a segment list. -/
def secureChunk (b : Prop) [Decidable b] : List (List Char) :=
  if b then [" Secure".toList] else []

/-- The `; Path={}` write of `fmt_parameters`, as a segment list. -/
def pathChunk (o : Option (List Char)) : List (List Char) :=
  match o with
  | some p => [" Path=".toList ++ p]
  | Option.none => []

/-- The `; Domain={}` write of `fmt_parameters`, as a segment list. -/
def domainChunk (o : Option (List Char)) : List (List Char) :=
  match o with
  | some d => [" Domain=".toList ++ d]
  | Option.none => []

/-- The `; Max-Age={}` write of `fmt_parameters`, as a segment list. -/
def maChunk (o : Option Duration) : List (List Char) :=
  match o with
  | some d => [" Max-Age=".toList ++ intDigits d.secs]
  | Option.none => []

/-- The `; Expires={}` write of `fmt_parameters`, as a segment list. -/
def expChunk (fd : Int → List Char) (o : Option Int) : List (List Char) :=
  match o with
  | some t => [" Expires=".toList ++ fd t]
  | Option.none => []

/-- The attribute segments written by `Cookie::fmt_parameters`, in source
order, each without its leading `;`. -/
def attrSegs (fd : Int → List Char) (c : Cookie) : List (List Char) :=
  httpChunk c.http_only
  ++ ssChunk c.same_site
  ++ partChunk c.partitioned
  ++ secureChunk (c.secure = some true ∨ c.partitioned = some true ∨
        (c.secure = Option.none ∧ c.same_site = some SameSite.none))
  ++ pathChunk c.pathAcc
  ++ domainChunk c.domainAcc
  ++ maChunk c.max_age
  ++ expChunk fd c.expires_datetime

/-- Model of `Cookie::fmt_parameters`: the concatenation of the attribute
segments, each introduced by `;`. -/
def Cookie.fmt_parameters (fd : Int → List Char) (c : Cookie) : List Char :=
  ((attrSegs fd c).map (fun seg => ';' :: seg)).flatten

/-- Model of `impl Display for Cookie` (`to_string()`): `name=value` followed
by the rendered parameters. -/
def Cookie.to_string (fd : Int → List Char) (c : Cookie) : List Char :=
  c.name ++ '=' :: c.value ++ Cookie.fmt_parameters fd c

/-- Trivial date formatter used at concrete inputs with no expiration. -/
def fdNone : Int → List Char := fun _ => []

/-- Model of `Cookie::set_expires` with its RFC 6265 clamp: dates are capped
at 9999-12-31 23:59:59 UTC (`MAX_DATETIME`; the model drops the `.999999`
fractional second, which whole-second arithmetic never reaches). -/
def maxDateTimeSecs : Int := 253402300799

/-- Number of seconds in `Duration::days(365)`. -/
def yearSecs : Int := 31536000

/-- Model of `Cookie::set_expires`. -/
def Cookie.set_expires (e : Expiration) (c : Cookie) : Cookie :=
  { c with expires := some (e.map (fun t => min t maxDateTimeSecs)) }

/-- Model of `Cookie::make_removal` (`lib.rs` lines 1192-1196): clears the
value, sets a zero max-age, and sets the expiration to one year before
`now`. -/
def Cookie.make_removal (now : Int) (c : Cookie) : Cookie :=
  Cookie.set_expires (.dateTime (now - yearSecs))
    { c with value := [], max_age := some (Duration.seconds 0) }

/-- Model of the `DeltaCookie` wrapper of `delta.rs`. -/
structure DeltaCookie where
  cookie : Cookie
  removed : Bool
  deriving DecidableEq, Repr

/-- Name of the wrapped cookie; `DeltaCookie` hashes/compares by this alone. -/
def DeltaCookie.name (d : DeltaCookie) : List Char :=
  d.cookie.name

/-- Model of `DeltaCookie::added`. -/
def DeltaCookie.added (c : Cookie) : DeltaCookie :=
  ⟨c, false⟩

/-- Model of `DeltaCookie::removed` (the constructor function). -/
def DeltaCookie.mkRemoved (c : Cookie) : DeltaCookie :=
  ⟨c, true⟩

/-- Model of `HashSet::get` keyed by name (the `Borrow<str>` impl of
`DeltaCookie` makes the jar's `HashSet`s name-keyed maps). -/
def hsFind (l : List DeltaCookie) (n : List Char) : Option DeltaCookie :=
  l.find? (fun d => d.name = n)

/-- Model of `HashSet::replace` keyed by name: inserts `d`, replacing any
entry with the same name. -/
def hsReplace (l : List DeltaCookie) (d : DeltaCookie) : List DeltaCookie :=
  d :: l.filter (fun x => ¬ x.name = d.name)

/-- Model of `HashSet::remove` keyed by name. -/
def hsRemove (l : List DeltaCookie) (n : List Char) : List DeltaCookie :=
  l.filter (fun x => ¬ x.name = n)

/-- Model of `HashSet::contains` keyed by name. -/
def hsContains (l : List DeltaCookie) (n : List Char) : Bool :=
  (hsFind l n).isSome

/-- Model of `HashSet::difference` keyed by name. -/
def hsDiff (a b : List DeltaCookie) : List DeltaCookie :=
  a.filter (fun x => ¬ hsContains b x.name)

/-- Model of the `CookieJar` struct of `jar.rs`: the two name-keyed
collections. -/
structure CookieJar where
  original_cookies : List DeltaCookie
  delta_cookies : List DeltaCookie
  deriving DecidableEq, Repr

/-- Model of `CookieJar::new`. -/
def CookieJar.new : CookieJar :=
  ⟨[], []⟩

/-- Model of `CookieJar::get`: delta entry first, falling back to the
original entry, then hiding entries marked removed. -/
def CookieJar.get (j : CookieJar) (name : List Char) : Option Cookie :=
  ((hsFind j.delta_cookies name).orElse
      (fun _ => hsFind j.original_cookies name)).bind
    (fun d => if d.removed then Option.none else some d.cookie)

/-- Model of `CookieJar::add_original`. -/
def CookieJar.add_original (j : CookieJar) (c : Cookie) : CookieJar :=
  { j with original_cookies := hsReplace j.original_cookies (DeltaCookie.added c) }

/-- Model of `CookieJar::add`. -/
def CookieJar.add (j : CookieJar) (c : Cookie) : CookieJar :=
  { j with delta_cookies := hsReplace j.delta_cookies (DeltaCookie.added c) }

/-- Model of `CookieJar::remove` (`jar.rs` lines 230-238); `now` is the
wall-clock instant of the call, consumed by `make_removal`. -/
def CookieJar.remove (j : CookieJar) (c : Cookie) (now : Int) : CookieJar :=
  if hsContains j.original_cookies c.name then
    { j with delta_cookies :=
        hsReplace j.delta_cookies (DeltaCookie.mkRemoved (Cookie.make_removal now c)) }
  else
    { j with delta_cookies := hsRemove j.delta_cookies c.name }

/-- Model of `CookieJar::force_remove`. -/
def CookieJar.force_remove (j : CookieJar) (n : List Char) : CookieJar :=
  ⟨hsRemove j.original_cookies n, hsRemove j.delta_cookies n⟩

/-- Model of `CookieJar::reset_delta`. -/
def CookieJar.reset_delta (j : CookieJar) : CookieJar :=
  { j with delta_cookies := [] }

/-- Model of the `Delta` iterator: every delta entry's cookie. -/
def CookieJar.delta (j : CookieJar) : List Cookie :=
  j.delta_cookies.map (fun d => d.cookie)

/-- Model of the `Iter` iterator: delta entries chained with the originals
not shadowed by a delta entry, removal markers skipped. -/
def CookieJar.iter (j : CookieJar) : List Cookie :=
  ((j.delta_cookies ++ hsDiff j.original_cookies j.delta_cookies).filter
    (fun d => ¬ d.removed)).map (fun d => d.cookie)

/-- Modelled from the spec: the `Key` type (`secure/key.rs` is declared by
`secure/mod.rs` but not present under `src/`): fixed-size key material split
into a signing sub-key and an encryption sub-key. -/
structure Key where
  signing : List Nat
  encryption : List Nat

/-- The external HMAC-SHA256 and base64 collaborators used by `SignedJar`,
as abstract parameters: `mac key message` is the digest,
`b64e`/`b64d` are `base64::encode`/`base64::decode`. -/
structure HmacModel where
  mac : List Nat → List Char → List Nat
  b64e : List Nat → List Char
  b64d : List Char → Option (List Nat)

/-- The `BASE64_DIGEST_LEN` constant of `secure/signed.rs`. -/
def BASE64_DIGEST_LEN : Nat := 44

/-- Model of the `SignedJar` struct of `secure/signed.rs`.  The `&mut` parent
borrow is modelled by carrying the parent jar by value. -/
structure SignedJar where
  parent : CookieJar
  key : List Nat
  rotated_keys : List (List Nat)

/-- Model of `SignedJar::new`: primary key only, no rotated keys. -/
def SignedJar.new (parent : CookieJar) (key : Key) : SignedJar :=
  ⟨parent, key.signing, []⟩

/-- Model of `SignedJar::new_rotatable`: the first key is primary, the rest
are the rotated keys, in order (`keys[0]` panics on an empty vector, modelled
as `none`). -/
def SignedJar.new_rotatable (parent : CookieJar) (keys : List Key) :
    Option SignedJar :=
  match keys with
  | [] => Option.none
  | k :: ks => some ⟨parent, k.signing, ks.map (fun x => x.signing)⟩

/-- Model of `SignedJar::sign_cookie`: the new value is
`base64(mac) ++ original value`, using only the primary key. -/
def sign_cookie (m : HmacModel) (j : SignedJar) (c : Cookie) : Cookie :=
  { c with value := m.b64e (m.mac j.key c.value) ++ c.value }

/-- The rotated-key fallback loop of `SignedJar::verify`: tries each rotated
key, in order. -/
def verifyLoop (m : HmacModel) (keys : List (List Nat)) (digest : List Nat)
    (value : List Char) : Option (List Char) :=
  match keys with
  | [] => Option.none
  | k :: ks =>
    if m.mac k value = digest then some value else verifyLoop m ks digest value

/-- Model of `SignedJar::verify` (`secure/signed.rs` lines 64-88): requires
the stored value to be at least the base64 digest length, splits off the
digest, base64-decodes it, then checks the primary key and falls back
through the rotated keys in order.  `none` models the `Err` cases (the
static message strings are elided). -/
def SignedJar.verify (m : HmacModel) (j : SignedJar) (cookie_value : List Char) :
    Option (List Char) :=
  if cookie_value.length < BASE64_DIGEST_LEN then Option.none
  else
    let digest_str := cookie_value.take BASE64_DIGEST_LEN
    let value := cookie_value.drop BASE64_DIGEST_LEN
    match m.b64d digest_str with
    | Option.none => Option.none
    | some digest =>
      if m.mac j.key value = digest then some value
      else verifyLoop m j.rotated_keys digest value

/-- Model of `SignedJar::get` (`secure/signed.rs` lines 108-118). -/
def SignedJar.get (m : HmacModel) (j : SignedJar) (name : List Char) :
    Option Cookie :=
  (j.parent.get name).bind (fun c =>
    (SignedJar.verify m j c.value).map (fun v => { c with value := v }))

/-- Model of `SignedJar::add`: signs with the primary key, then delegates to
the parent's `add`. -/
def SignedJar.add (m : HmacModel) (j : SignedJar) (c : Cookie) : SignedJar :=
  { j with parent := j.parent.add (sign_cookie m j c) }

/-- The external AEAD, base64, and UTF-8 collaborators used by `PrivateJar`
(`ring`'s AES-256-GCM `open_in_place`, `rustc_serialize` base64,
`String::from_utf8`), as abstract parameters. -/
structure AeadModel where
  b64d : List Char → Option (List Nat)
  aeadOpen : List Nat → List Nat → List Nat → Option (List Nat)
  utf8 : List Nat → Option (List Char)

/-- The `BASE64_NONCE_LEN` constant of `secure/private.rs`. -/
def BASE64_NONCE_LEN : Nat := 16

/-- Model of the `PrivateJar` struct of `secure/private.rs`: a parent jar and
a single 32-byte key (this version of the jar holds exactly one key). -/
structure PrivateJar where
  parent : CookieJar
  key : List Nat

/-- Model of the `CookieJar::private` constructor of `secure/private.rs`:
panics (modelled as `none`) unless the key is exactly 32 bytes. -/
def mkPrivate (parent : CookieJar) (key : List Nat) : Option PrivateJar :=
  if key.length = 32 then some ⟨parent, key⟩ else Option.none

/-- Model of `PrivateJar::unseal` (`secure/private.rs` lines 90-101): splits
the value at the base64 nonce length, decodes both halves, AEAD-opens the
sealed part, and UTF-8-decodes the result. -/
def PrivateJar.unseal (m : AeadModel) (j : PrivateJar) (value : List Char) :
    Option (List Char) :=
  let nonce_s := value.take BASE64_NONCE_LEN
  let sealed_s := value.drop BASE64_NONCE_LEN
  (m.b64d nonce_s).bind (fun nonce =>
    (m.b64d sealed_s).bind (fun sealed =>
      (m.aeadOpen j.key nonce sealed).bind (fun out => m.utf8 out)))

/-- Model of `PrivateJar::get` (`secure/private.rs` lines 121-135): values no
longer than the base64 nonce length yield `None` before `unseal` is ever
reached. -/
def PrivateJar.get (m : AeadModel) (j : PrivateJar) (name : List Char) :
    Option Cookie :=
  (j.parent.get name).bind (fun c =>
    if c.value.length ≤ BASE64_NONCE_LEN then Option.none
    else (PrivateJar.unseal m j c.value).map (fun v => { c with value := v }))

/-- Jar operations, for stating jar invariants over arbitrary operation
sequences. -/
inductive JarOp where
  | add_original (c : Cookie) : JarOp
  | add (c : Cookie) : JarOp
  | remove (c : Cookie) (now : Int) : JarOp
  | force_remove (n : List Char) : JarOp

/-- Applies one jar operation. -/
def JarOp.apply (j : CookieJar) : JarOp → CookieJar
  | .add_original c => j.add_original c
  | .add c => j.add c
  | .remove c now => j.remove c now
  | .force_remove n => j.force_remove n

/-- Applies a sequence of jar operations, oldest first. -/
def applyOps (ops : List JarOp) (j : CookieJar) : CookieJar :=
  ops.foldl JarOp.apply j

example :
    parse_cookie decId pdNone false ("foo=bar=baz".toList) =
      .ok (Cookie.new ("foo".toList) ("bar=baz".toList)) := by decide

lemma splitSemi_nil : splitSemi [] = [[]] := rfl

lemma splitSemi_semi (t : List Char) : splitSemi (';' :: t) = [] :: splitSemi t := by
  simp [splitSemi]

lemma splitSemi_cons_of_ne (c : Char) (t : List Char) (h : c ≠ ';') :
    splitSemi (c :: t) =
      match splitSemi t with
      | a :: rest => (c :: a) :: rest
      | [] => [[c]] := by
  simp [splitSemi, h]

lemma splitSemi_ne_nil (s : List Char) : splitSemi s ≠ [] := by
  induction s with
  | nil => simp [splitSemi]
  | cons c t ih =>
    by_cases h : c = ';'
    · subst h; rw [splitSemi_semi]; simp
    · rw [splitSemi_cons_of_ne c t h]
      rcases hs : splitSemi t with _ | ⟨a, rest⟩ <;> simp

lemma splitSemi_append (a b : List Char) (h : ';' ∉ a) :
    splitSemi (a ++ b) =
      match splitSemi b with
      | x :: rest => (a ++ x) :: rest
      | [] => [a] := by
  induction a with
  | nil =>
    rcases hs : splitSemi b with _ | ⟨x, rest⟩
    · exact absurd hs (splitSemi_ne_nil b)
    · simp [hs]
  | cons c t ih =>
    have hc : c ≠ ';' := by intro hc; exact h (by simp [hc])
    have ht : ';' ∉ t := by intro hm; exact h (by simp [hm])
    rw [List.cons_append, splitSemi_cons_of_ne c (t ++ b) hc, ih ht]
    rcases hs : splitSemi b with _ | ⟨x, rest⟩
    · exact absurd hs (splitSemi_ne_nil b)
    · simp

lemma splitSemi_no_semi (s : List Char) (h : ';' ∉ s) : splitSemi s = [s] := by
  have := splitSemi_append s [] h
  simpa [splitSemi_nil] using this

lemma splitSemi_flatten (segs : List (List Char))
    (h : ∀ seg ∈ segs, ';' ∉ seg) :
    splitSemi ((segs.map (fun seg => ';' :: seg)).flatten) = [] :: segs := by
  induction segs with
  | nil => simp [splitSemi_nil]
  | cons seg rest ih =>
    have hseg : ';' ∉ seg := h seg (by simp)
    have hrest : ∀ s ∈ rest, ';' ∉ s := fun s hs => h s (by simp [hs])
    rw [List.map_cons, List.flatten_cons, List.cons_append, splitSemi_semi,
      splitSemi_append seg _ hseg, ih hrest]
    simp

lemma splitFirstEq_eq (a b : List Char) (h : '=' ∉ a) :
    splitFirstEq (a ++ '=' :: b) = some (a, b) := by
  induction a with
  | nil => simp [splitFirstEq]
  | cons c t ih =>
    have hc : c ≠ '=' := by intro hc; exact h (by simp [hc])
    have ht : '=' ∉ t := by intro hm; exact h (by simp [hm])
    simp [splitFirstEq, hc, ih ht]

lemma splitFirstEq_none (s : List Char) (h : '=' ∉ s) : splitFirstEq s = none := by
  induction s with
  | nil => rfl
  | cons c t ih =>
    have hc : c ≠ '=' := by intro hc; exact h (by simp [hc])
    have ht : '=' ∉ t := by intro hm; exact h (by simp [hm])
    simp [splitFirstEq, hc, ih ht]

lemma dropWhile_eq_self_of_none {p : Char → Bool} (s : List Char)
    (h : ∀ c ∈ s, p c = false) : s.dropWhile p = s := by
  cases s with
  | nil => rfl
  | cons c t => simp [List.dropWhile, h c (by simp)]

lemma trim_eq_self_of_no_ws (s : List Char) (h : ∀ c ∈ s, isWS c = false) :
    trim s = s := by
  unfold trim
  rw [dropWhile_eq_self_of_none s h,
    dropWhile_eq_self_of_none s.reverse (fun c hc => h c (by simpa using hc)),
    List.reverse_reverse]

lemma isWS_digit_false (c : Char) (h : c.isDigit = true) : isWS c = false := by
  simp only [Char.isDigit, Bool.and_eq_true, decide_eq_true_eq] at h
  obtain ⟨h1, h2⟩ := h
  simp only [isWS, Bool.or_eq_false_iff, decide_eq_false_iff_not]
  refine ⟨⟨⟨?_, ?_⟩, ?_⟩, ?_⟩ <;> intro he <;> subst he <;> revert h1 <;> decide

lemma natDigitsAux_irrel (f1 : Nat) : ∀ f2 n, n ≤ f1 → n ≤ f2 →
    natDigitsAux f1 n = natDigitsAux f2 n := by
  induction f1 with
  | zero =>
    intro f2 n h1 _
    have hn : n = 0 := by omega
    subst hn
    cases f2 with
    | zero => rfl
    | succ f => simp [natDigitsAux]
  | succ f ih =>
    intro f2 n h1 h2
    cases f2 with
    | zero =>
      have hn : n = 0 := by omega
      subst hn
      simp [natDigitsAux]
    | succ g =>
      unfold natDigitsAux
      by_cases h : n < 10
      · rw [if_pos h, if_pos h]
      · rw [if_neg h, if_neg h]
        have hd1 : n / 10 ≤ f := by omega
        have hd2 : n / 10 ≤ g := by omega
        rw [ih g (n / 10) hd1 hd2]

lemma natDigits_eq (n : Nat) :
    natDigits n = if n < 10 then [Nat.digitChar n]
      else natDigits (n / 10) ++ [Nat.digitChar (n % 10)] := by
  unfold natDigits
  cases hn : n with
  | zero => simp [natDigitsAux]
  | succ k =>
    have hhead : natDigitsAux (k + 1) (k + 1) =
        if k + 1 < 10 then [Nat.digitChar (k + 1)]
        else natDigitsAux k ((k + 1) / 10) ++ [Nat.digitChar ((k + 1) % 10)] := rfl
    rw [hhead]
    by_cases h : k + 1 < 10
    · rw [if_pos h, if_pos h]
    · rw [if_neg h, if_neg h]
      have hle1 : (k + 1) / 10 ≤ k := by omega
      have hle2 : (k + 1) / 10 ≤ (k + 1) / 10 := le_refl _
      rw [natDigitsAux_irrel k ((k + 1) / 10) ((k + 1) / 10) hle1 hle2]

lemma natDigits_all_digit (n : Nat) : ∀ c ∈ natDigits n, c.isDigit = true := by
  induction n using Nat.strong_induction_on with
  | _ n ih =>
    intro c hc
    rw [natDigits_eq] at hc
    split at hc
    · next h =>
      interval_cases n <;> simp_all <;> subst hc <;> decide
    · next h =>
      rcases List.mem_append.1 hc with hm | hm
      · exact ih (n / 10) (Nat.div_lt_self (by omega) (by omega)) c hm
      · have : c = Nat.digitChar (n % 10) := by simpa using hm
        subst this
        have : n % 10 < 10 := Nat.mod_lt _ (by omega)
        interval_cases h : n % 10 <;> simp_all <;> decide

lemma natDigits_ne_nil (n : Nat) : natDigits n ≠ [] := by
  rw [natDigits_eq]
  split <;> simp

lemma digitsVal_append (a b : List Char) :
    digitsVal (a ++ b) = b.foldl (fun x c => x * 10 + (c.toNat - 48)) (digitsVal a) := by
  simp [digitsVal, List.foldl_append]

lemma digitChar_val (n : Nat) (h : n < 10) : (Nat.digitChar n).toNat - 48 = n := by
  interval_cases n <;> decide

lemma digitsVal_natDigits (n : Nat) : digitsVal (natDigits n) = n := by
  induction n using Nat.strong_induction_on with
  | _ n ih =>
    rw [natDigits_eq]
    split
    · next h =>
      simp [digitsVal, digitChar_val n h]
    · next h =>
      rw [digitsVal_append, ih (n / 10) (Nat.div_lt_self (by omega) (by omega))]
      simp [digitChar_val (n % 10) (Nat.mod_lt _ (by omega))]
      omega

lemma not_mem_natDigits_of_not_digit (c : Char) (n : Nat) (h : c.isDigit = false) :
    c ∉ natDigits n := by
  intro hm
  have := natDigits_all_digit n c hm
  rw [h] at this
  exact absurd this (by simp)

lemma trim_natDigits (n : Nat) : trim (natDigits n) = natDigits n :=
  trim_eq_self_of_no_ws _ (fun c hc => isWS_digit_false c (natDigits_all_digit n c hc))

lemma natDigits_head_digit (n : Nat) :
    ∃ c t, natDigits n = c :: t ∧ c.isDigit = true := by
  rcases hd : natDigits n with _ | ⟨c, t⟩
  · exact absurd hd (natDigits_ne_nil n)
  · exact ⟨c, t, rfl, natDigits_all_digit n c (by rw [hd]; simp)⟩

lemma parseI64_natDigits (n : Nat) (h : (n : Int) ≤ i64Max) :
    parseI64 (natDigits n) = some (n : Int) := by
  obtain ⟨c, t, hd, hc⟩ := natDigits_head_digit n
  have hplus : c ≠ '+' := fun he => by subst he; exact absurd hc (by decide)
  have hminus : c ≠ '-' := fun he => by subst he; exact absurd hc (by decide)
  have hall := natDigits_all_digit n
  unfold parseI64
  rw [hd]
  have h1 : (c :: t).head? = some c := rfl
  rw [h1]
  simp only [Option.some.injEq, hminus, hplus, or_self, if_false, ite_false]
  rw [if_neg (by simp)]
  rw [if_pos]
  · rw [if_pos]
    · simp only [one_mul, Option.some.injEq]
      rw [← hd, digitsVal_natDigits]
    · constructor
      · rw [← hd, digitsVal_natDigits]
        simp only [one_mul]
        have : (0 : Int) ≤ (n : Int) := Int.ofNat_nonneg n
        unfold i64Min
        omega
      · rw [← hd, digitsVal_natDigits]
        simpa using h
  · rw [List.all_eq_true]
    intro x hx
    exact hall x (by rw [hd]; exact hx)

example :
    parse_cookie decId pdNone false ("bar".toList) = .error .missingPair := by
  decide

example :
    parse_cookie decId pdNone false (" =bar".toList) = .error .emptyName := by
  decide

example :
    (parse_cookie decId pdNone false (" foo=bar ;HttpOnly; Secure; Max-Age=-1".toList)).map
      (fun c => (c.http_only, c.secure, c.max_age)) =
    .ok (some true, some true, some Duration.zero) := by decide

/-- C10: for every cookie whose value is shorter than two characters —
including the value consisting of the single character `"` — `value_trimmed`
returns the value unchanged; the surrounding pair of double quotes is
stripped exactly when the value is at least two characters long and both its
first and last characters are `"`. -/
theorem value_trimmed_spec (c : Cookie) :
    (c.value.length < 2 → c.value_trimmed = c.value) ∧
    (c.value = ['"'] → c.value_trimmed = c.value) ∧
    (2 ≤ c.value.length → c.value.head? = some '"' → c.value.getLast? = some '"' →
      c.value_trimmed = (c.value.drop 1).dropLast) ∧
    (c.value_trimmed ≠ c.value →
      2 ≤ c.value.length ∧ c.value.head? = some '"' ∧ c.value.getLast? = some '"') := by
  refine ⟨?_, ?_, ?_, ?_⟩
  · intro h
    simp [Cookie.value_trimmed, h]
  · intro h
    simp [Cookie.value_trimmed, h]
  · intro h2 hh hl
    unfold Cookie.value_trimmed
    rw [if_neg (by omega), if_pos ⟨hh, hl⟩]
  · intro hne
    unfold Cookie.value_trimmed at hne
    split_ifs at hne with h1 h2
    · exact absurd rfl hne
    · exact ⟨by omega, h2.1, h2.2⟩
    · exact absurd rfl hne

/-- Witness for `value_trimmed_spec` at concrete inputs: the single-quote
value is returned unchanged, and a properly quoted value is trimmed. -/
theorem value_trimmed_spec_witness :
    (Cookie.new ("n".toList) ['"']).value_trimmed = ['"'] ∧
    (Cookie.new ("n".toList) ("\"v\"".toList)).value_trimmed = "v".toList := by
  constructor
  · exact (value_trimmed_spec (Cookie.new ("n".toList) ['"'])).2.1 (by decide)
  · have h := (value_trimmed_spec (Cookie.new ("n".toList) ("\"v\"".toList))).2.2.1
      (by decide) (by decide) (by decide)
    rw [h]
    decide

/-- C2: `CookieJar::remove` with an original cookie of the same name present
upserts into the delta a removal marker: same name, empty value, zero
max-age, expiration one year before the call's time, and the removing
cookie's path and domain, marked removed.  With no original of that name it
only deletes the delta entry of that name, so an `add` followed by a
`remove` on a fresh jar leaves the delta empty. -/
theorem jar_remove_spec (j : CookieJar) (c : Cookie) (now : Int)
    (hnow : now - yearSecs ≤ maxDateTimeSecs) :
    (hsContains j.original_cookies c.name = true →
      j.remove c now =
        { j with delta_cookies := (hsReplace j.delta_cookies (DeltaCookie.mkRemoved (Cookie.make_removal now c))) } ∧
      (Cookie.make_removal now c).name = c.name ∧
      (Cookie.make_removal now c).value = [] ∧
      (Cookie.make_removal now c).max_age = some Duration.zero ∧
      (Cookie.make_removal now c).expires =
        some (Expiration.dateTime (now - yearSecs)) ∧
      (Cookie.make_removal now c).path = c.path ∧
      (Cookie.make_removal now c).domain = c.domain ∧
      (DeltaCookie.mkRemoved (Cookie.make_removal now c)).removed = true) ∧
    (hsContains j.original_cookies c.name = false →
      j.remove c now = { j with delta_cookies := hsRemove j.delta_cookies c.name }) ∧
    (∀ c' : Cookie, c'.name = c.name →
      ((CookieJar.new.add c).remove c' now).delta_cookies = []) := by
  refine ⟨?_, ?_, ?_⟩
  · intro hc
    refine ⟨?_, ?_⟩
    · unfold CookieJar.remove
      rw [if_pos hc]
    · refine ⟨rfl, rfl, rfl, ?_, rfl, rfl, rfl⟩
      unfold Cookie.make_removal Cookie.set_expires
      simp [Expiration.map, min_eq_left hnow]
  · intro hc
    unfold CookieJar.remove
    rw [if_neg (by simp [hc])]
  · intro c' hname
    unfold CookieJar.remove
    rw [if_neg (by simp [CookieJar.new, CookieJar.add, hsContains, hsFind])]
    simp [CookieJar.new, CookieJar.add, hsRemove, hsReplace, hname,
      DeltaCookie.added, DeltaCookie.name]

/-- Witness for `jar_remove_spec`: a jar seeded with an original cookie named
`n`, removed at time 0. -/
theorem jar_remove_spec_witness :
    ((CookieJar.new.add_original (Cookie.new ("n".toList) ("v".toList))).remove
        (Cookie.new ("n".toList) []) 0).delta_cookies =
      [DeltaCookie.mkRemoved
        (Cookie.make_removal 0 (Cookie.new ("n".toList) []))] ∧
    (Cookie.make_removal 0 (Cookie.new ("n".toList) [])).expires =
      some (Expiration.dateTime (0 - yearSecs)) := by
  have h := jar_remove_spec
    (CookieJar.new.add_original (Cookie.new ("n".toList) ("v".toList)))
    (Cookie.new ("n".toList) []) 0 (by decide)
  have h1 := h.1 (by decide)
  refine ⟨?_, h1.2.2.2.2.1⟩
  rw [h1.1]
  decide

/-- Names-nodup invariant: a name-keyed collection holds at most one entry
per cookie name. -/
def namesNodup (l : List DeltaCookie) : Prop :=
  (l.map DeltaCookie.name).Nodup

lemma namesNodup_hsReplace (l : List DeltaCookie) (d : DeltaCookie)
    (h : namesNodup l) : namesNodup (hsReplace l d) := by
  unfold namesNodup hsReplace
  rw [List.map_cons, List.nodup_cons]
  constructor
  · intro hm
    rcases List.mem_map.1 hm with ⟨x, hx, hnx⟩
    rcases List.mem_filter.1 hx with ⟨_, hcond⟩
    simp only [decide_eq_true_eq] at hcond
    exact hcond hnx
  · exact List.Nodup.sublist ((List.filter_sublist l).map DeltaCookie.name) h

lemma namesNodup_hsRemove (l : List DeltaCookie) (n : List Char)
    (h : namesNodup l) : namesNodup (hsRemove l n) :=
  List.Nodup.sublist ((List.filter_sublist l).map DeltaCookie.name) h

lemma jarInv_apply (j : CookieJar) (op : JarOp)
    (h1 : namesNodup j.original_cookies) (h2 : namesNodup j.delta_cookies) :
    namesNodup (JarOp.apply j op).original_cookies ∧
      namesNodup (JarOp.apply j op).delta_cookies := by
  cases op with
  | add_original c =>
    exact ⟨namesNodup_hsReplace _ _ h1, h2⟩
  | add c =>
    exact ⟨h1, namesNodup_hsReplace _ _ h2⟩
  | remove c now =>
    dsimp only [JarOp.apply]
    unfold CookieJar.remove
    split_ifs
    · exact ⟨h1, namesNodup_hsReplace _ _ h2⟩
    · exact ⟨h1, namesNodup_hsRemove _ _ h2⟩
  | force_remove n =>
    exact ⟨namesNodup_hsRemove _ _ h1, namesNodup_hsRemove _ _ h2⟩

lemma jarInv_applyOps (ops : List JarOp) (j : CookieJar)
    (h1 : namesNodup j.original_cookies) (h2 : namesNodup j.delta_cookies) :
    namesNodup (applyOps ops j).original_cookies ∧
      namesNodup (applyOps ops j).delta_cookies := by
  induction ops generalizing j with
  | nil => exact ⟨h1, h2⟩
  | cons op rest ih =>
    have h := jarInv_apply j op h1 h2
    exact ih (JarOp.apply j op) h.1 h.2

/-- C8: after any sequence of `add_original`/`add`/`remove`/`force_remove`
operations on a fresh jar, each of the two collections holds at most one
entry per cookie name; and concretely, adding `("k","1")` then `("k","2")`
leaves `get "k"` returning the cookie with value `"2"` and `iter` yielding
exactly one cookie named `k`. -/
theorem jar_name_uniqueness :
    (∀ ops : List JarOp,
      namesNodup (applyOps ops CookieJar.new).original_cookies ∧
      namesNodup (applyOps ops CookieJar.new).delta_cookies) ∧
    ((CookieJar.new.add (Cookie.new ("k".toList) ("1".toList))).add
        (Cookie.new ("k".toList) ("2".toList))).get ("k".toList) =
      some (Cookie.new ("k".toList) ("2".toList)) ∧
    (((CookieJar.new.add (Cookie.new ("k".toList) ("1".toList))).add
        (Cookie.new ("k".toList) ("2".toList))).iter.filter
      (fun c => c.name = "k".toList)).length = 1 := by
  refine ⟨?_, ?_, ?_⟩
  · intro ops
    exact jarInv_applyOps ops CookieJar.new (by simp [namesNodup, CookieJar.new])
      (by simp [namesNodup, CookieJar.new])
  · decide
  · decide

/-- C9: `PrivateJar::get` returns `None` whenever the stored value is no
longer than the base64 nonce length, and the nonce/ciphertext split inside
`unseal` is only ever reached for stored values strictly longer than the
nonce, so a truncated stored value can never cause an out-of-bounds split. -/
theorem private_get_short_value (m : AeadModel) (j : PrivateJar)
    (name : List Char) :
    (∀ c, j.parent.get name = some c → c.value.length ≤ BASE64_NONCE_LEN →
      PrivateJar.get m j name = Option.none) ∧
    (∀ c', PrivateJar.get m j name = some c' →
      ∃ c, j.parent.get name = some c ∧ BASE64_NONCE_LEN < c.value.length) := by
  constructor
  · intro c hget hlen
    simp [PrivateJar.get, hget, hlen]
  · intro c' hget
    unfold PrivateJar.get at hget
    rcases hp : j.parent.get name with _ | c
    · rw [hp] at hget
      exact absurd hget (by simp)
    · rw [hp] at hget
      simp only [Option.some_bind] at hget
      by_cases h : c.value.length ≤ BASE64_NONCE_LEN
      · rw [if_pos h] at hget
        exact absurd hget (by simp)
      · exact ⟨c, rfl, by omega⟩

/-- Witness for `private_get_short_value`: a parent holding a 5-character
stored value, with an arbitrary concrete AEAD instance. -/
theorem private_get_short_value_witness :
    PrivateJar.get
      { b64d := fun _ => Option.none,
        aeadOpen := fun _ _ _ => Option.none,
        utf8 := fun _ => Option.none }
      ⟨CookieJar.new.add (Cookie.new ("n".toList) ("short".toList)), [1]⟩
      ("n".toList) = Option.none := by
  exact (private_get_short_value _ _ _).1
    (Cookie.new ("n".toList) ("short".toList)) (by decide) (by decide)

lemma verifyLoop_none (m : HmacModel) (keys : List (List Nat))
    (digest : List Nat) (value : List Char)
    (h : ∀ k ∈ keys, ¬ m.mac k value = digest) :
    verifyLoop m keys digest value = Option.none := by
  induction keys with
  | nil => rfl
  | cons k ks ih =>
    unfold verifyLoop
    rw [if_neg (h k (by simp))]
    exact ih (fun x hx => h x (by simp [hx]))

lemma verifyLoop_mem (m : HmacModel) (keys : List (List Nat))
    (digest : List Nat) (value : List Char)
    (ki : List Nat) (hmem : ki ∈ keys) (hki : m.mac ki value = digest) :
    verifyLoop m keys digest value = some value := by
  induction keys with
  | nil => simp at hmem
  | cons k ks ih =>
    unfold verifyLoop
    by_cases hk : m.mac k value = digest
    · rw [if_pos hk]
    · rw [if_neg hk]
      rcases List.mem_cons.1 hmem with he | hm
      · subst he; exact absurd hki hk
      · exact ih hm

/-- C4: if the value stored under `name` in the parent jar is shorter than
the 44-character base64 tag, or its tag fails to base64-decode, or the
HMAC verifies under none of the signed jar's keys, then `SignedJar::get`
returns `None` while the parent jar's own `get` still returns the
(possibly tampered) stored cookie. -/
theorem signed_get_tamper (m : HmacModel) (j : SignedJar) (name : List Char)
    (c : Cookie) (hget : j.parent.get name = some c)
    (hfail : c.value.length < BASE64_DIGEST_LEN ∨
      m.b64d (c.value.take BASE64_DIGEST_LEN) = Option.none ∨
      (∀ digest, m.b64d (c.value.take BASE64_DIGEST_LEN) = some digest →
        ∀ k ∈ j.key :: j.rotated_keys,
          ¬ m.mac k (c.value.drop BASE64_DIGEST_LEN) = digest)) :
    SignedJar.get m j name = Option.none ∧ j.parent.get name = some c := by
  refine ⟨?_, hget⟩
  unfold SignedJar.get
  rw [hget]
  simp only [Option.some_bind]
  suffices h : SignedJar.verify m j c.value = Option.none by
    rw [h]; rfl
  unfold SignedJar.verify
  by_cases hlen : c.value.length < BASE64_DIGEST_LEN
  · rw [if_pos hlen]
  · rw [if_neg hlen]
    dsimp only
    rcases hfail with h | h | h
    · exact absurd h hlen
    · rw [h]
    · rcases hb : m.b64d (c.value.take BASE64_DIGEST_LEN) with _ | digest
      · rfl
      · dsimp only
        rw [if_neg (h digest hb j.key (by simp))]
        exact verifyLoop_none m _ _ _
          (fun k hk => h digest hb k (by simp [hk]))

/-- Witness for `signed_get_tamper`: a stored value shorter than the tag
length, with an arbitrary concrete HMAC instance. -/
theorem signed_get_tamper_witness :
    SignedJar.get
      { mac := fun k _ => k, b64e := fun _ => [], b64d := fun _ => Option.none }
      ⟨CookieJar.new.add (Cookie.new ("n".toList) ("abc".toList)), [1], []⟩
      ("n".toList) = Option.none := by
  exact (signed_get_tamper _ _ ("n".toList)
    (Cookie.new ("n".toList) ("abc".toList)) (by decide)
    (Or.inl (by decide))).1

/-- Concrete HMAC/base64 instance used to exercise the signed-jar model: the
digest of any message is the key itself, encoded into a fixed 44-character
string. -/
def toyHmac : HmacModel where
  mac := fun k _ => k
  b64e := fun d =>
    (d.map (fun n => Char.ofNat (65 + n % 26))) ++ List.replicate (44 - d.length) 'A'
  b64d := fun s => some ((s.take 1).map (fun c => c.toNat - 65))

/-- Concrete AEAD instance used to exercise the private-jar model: a sealed
text decrypts exactly under the key it encodes. -/
def toyAead : AeadModel where
  b64d := fun s => some (s.map (fun c => c.toNat))
  aeadOpen := fun k _ s => if s = k then some s else Option.none
  utf8 := fun b => some (b.map (fun n => Char.ofNat n))

/-- Counterexample for C3's private-jar half: this `PrivateJar` holds exactly
one key, so a value sealed under the older key of a rotation list
`[new, old]` does not verify through a jar holding the new (primary) key —
`get` returns `None` — even though the very same stored value decrypts
through a jar holding the old key. -/
theorem private_rotation_cex :
    (PrivateJar.get toyAead
      ⟨CookieJar.new.add (Cookie.new ("n".toList) ("0123456789abcdefo".toList)),
        [110]⟩ ("n".toList) = Option.none) ∧
    (PrivateJar.get toyAead
      ⟨CookieJar.new.add (Cookie.new ("n".toList) ("0123456789abcdefo".toList)),
        [111]⟩ ("n".toList) =
      some { Cookie.new ("n".toList) ("0123456789abcdefo".toList) with
        value := ['o'] }) := by
  decide

/-- C3 (amended): the signed jar supports key rotation — a value whose
digest was produced under any key of the ordered list `k0 :: ks` verifies
through `SignedJar::new_rotatable`'s jar, with the primary key tried first
and the older keys in order, and newly added cookies are signed with the
primary key only.  The private jar of this crate holds a single key and
performs no fallback: whenever that one key fails to unseal a stored value,
`get` returns `None`. -/
theorem key_rotation_spec (m : HmacModel) (parent : CookieJar)
    (name : List Char) (storedC : Cookie) (k0 : Key) (ks : List Key)
    (ki : Key) (v : List Char)
    (hmem : ki ∈ k0 :: ks)
    (hlen : (m.b64e (m.mac ki.signing v)).length = BASE64_DIGEST_LEN)
    (hb64 : m.b64d (m.b64e (m.mac ki.signing v)) = some (m.mac ki.signing v))
    (hget : parent.get name = some storedC)
    (hval : storedC.value = m.b64e (m.mac ki.signing v) ++ v) :
    (SignedJar.new_rotatable parent (k0 :: ks) =
      some ⟨parent, k0.signing, ks.map (fun k => k.signing)⟩ ∧
     SignedJar.get m ⟨parent, k0.signing, ks.map (fun k => k.signing)⟩ name =
      some { storedC with value := v } ∧
     (∀ c : Cookie,
        SignedJar.add m ⟨parent, k0.signing, ks.map (fun k => k.signing)⟩ c =
        ⟨parent.add { c with value := m.b64e (m.mac k0.signing c.value) ++ c.value },
          k0.signing, ks.map (fun k => k.signing)⟩)) ∧
    (∀ (am : AeadModel) (pj : PrivateJar) (nm : List Char) (c : Cookie),
      pj.parent.get nm = some c → ¬ c.value.length ≤ BASE64_NONCE_LEN →
      PrivateJar.unseal am pj c.value = Option.none →
      PrivateJar.get am pj nm = Option.none) := by
  refine ⟨⟨rfl, ?_, fun c => rfl⟩, ?_⟩
  · unfold SignedJar.get
    rw [hget]
    simp only [Option.some_bind]
    suffices h : SignedJar.verify m ⟨parent, k0.signing,
        ks.map (fun k => k.signing)⟩ storedC.value = some v by
      rw [h]; rfl
    unfold SignedJar.verify
    rw [hval]
    have hlen2 : (m.b64e (m.mac ki.signing v) ++ v).length =
        BASE64_DIGEST_LEN + v.length := by
      rw [List.length_append, hlen]
    rw [if_neg (by omega)]
    dsimp only
    have htake : (m.b64e (m.mac ki.signing v) ++ v).take BASE64_DIGEST_LEN =
        m.b64e (m.mac ki.signing v) := by
      rw [← hlen, List.take_left]
    have hdrop : (m.b64e (m.mac ki.signing v) ++ v).drop BASE64_DIGEST_LEN = v := by
      rw [← hlen, List.drop_left]
    rw [htake, hdrop, hb64]
    dsimp only
    by_cases hk0 : m.mac k0.signing v = m.mac ki.signing v
    · rw [if_pos hk0]
    · rw [if_neg hk0]
      rcases List.mem_cons.1 hmem with he | hm
      · subst he
        exact absurd rfl hk0
      · exact verifyLoop_mem m _ _ _ ki.signing (List.mem_map_of_mem _ hm) rfl
  · intro am pj nm c hg hlen2 hu
    unfold PrivateJar.get
    rw [hg]
    simp only [Option.some_bind]
    rw [if_neg hlen2, hu]
    rfl

/-- Witness for `key_rotation_spec`: with the concrete `toyHmac` scheme, a
value whose digest was produced under the older key `[5]` of the rotation
list `[[3], [5]]` still verifies through the rotated signed jar. -/
theorem key_rotation_spec_witness :
    SignedJar.get toyHmac
      ⟨CookieJar.new.add (Cookie.new ("n".toList)
          (toyHmac.b64e (toyHmac.mac [5] ("T".toList)) ++ "T".toList)),
        [3], [[5]]⟩ ("n".toList) =
      some { Cookie.new ("n".toList)
          (toyHmac.b64e (toyHmac.mac [5] ("T".toList)) ++ "T".toList) with
        value := "T".toList } := by
  have h := (key_rotation_spec toyHmac
    (CookieJar.new.add (Cookie.new ("n".toList)
      (toyHmac.b64e (toyHmac.mac [5] ("T".toList)) ++ "T".toList)))
    ("n".toList)
    (Cookie.new ("n".toList)
      (toyHmac.b64e (toyHmac.mac [5] ("T".toList)) ++ "T".toList))
    ⟨[3], []⟩ [⟨[5], []⟩] ⟨[5], []⟩ ("T".toList)
    (by simp) (by decide) (by decide) (by decide) rfl).1
  exact h.2.1

lemma processAttr_name (pd : DateParse) (c : Cookie) (a : List Char) :
    (processAttr pd c a).name = c.name := by
  unfold processAttr
  dsimp only
  repeat' split
  all_goals rfl

lemma processAttr_value (pd : DateParse) (c : Cookie) (a : List Char) :
    (processAttr pd c a).value = c.value := by
  unfold processAttr
  dsimp only
  repeat' split
  all_goals rfl

lemma foldl_processAttr_name (pd : DateParse) (c : Cookie)
    (attrs : List (List Char)) :
    (attrs.foldl (processAttr pd) c).name = c.name := by
  induction attrs generalizing c with
  | nil => rfl
  | cons a rest ih => rw [List.foldl_cons, ih, processAttr_name]

lemma foldl_processAttr_value (pd : DateParse) (c : Cookie)
    (attrs : List (List Char)) :
    (attrs.foldl (processAttr pd) c).value = c.value := by
  induction attrs generalizing c with
  | nil => rfl
  | cons a rest ih => rw [List.foldl_cons, ih, processAttr_value]

lemma parse_cookie_error_iff (dec : Decoder) (pd : DateParse) (decode : Bool)
    (s : List Char) (e : ParseError) :
    parse_cookie dec pd decode s = .error e ↔
      (splitFirstEq ((splitSemi s).headD []) = Option.none ∧ e = .missingPair) ∨
      (∃ n v, splitFirstEq ((splitSemi s).headD []) = some (n, v) ∧
        trim n = [] ∧ e = .emptyName) ∨
      (∃ n v, splitFirstEq ((splitSemi s).headD []) = some (n, v) ∧
        trim n ≠ [] ∧ decode = true ∧
        (¬ ∃ dn dv, dec (trim n) = .ok dn ∧ dec (trim v) = .ok dv) ∧
        e = .utf8Error) := by
  unfold parse_cookie parse_inner
  rcases hsp : splitFirstEq ((splitSemi s).headD []) with _ | ⟨n, v⟩
  · simp only [hsp]
    constructor
    · intro h
      exact Or.inl ⟨by simp, by cases h; rfl⟩
    · rintro (⟨_, he⟩ | ⟨n, v, hnv, _⟩ | ⟨n, v, hnv, _⟩)
      · rw [he]
      · exact absurd hnv (by simp)
      · exact absurd hnv (by simp)
  · simp only [hsp]
    by_cases hn : trim n = []
    · rw [if_pos hn]
      constructor
      · intro h
        exact Or.inr (Or.inl ⟨n, v, rfl, hn, by cases h; rfl⟩)
      · rintro (⟨hno, _⟩ | ⟨n', v', hnv, _, he⟩ | ⟨n', v', hnv, hn', _, _, _⟩)
        · exact absurd hno (by simp)
        · rw [he]
        · rw [Option.some.injEq, Prod.mk.injEq] at hnv
          exact absurd (hnv.1 ▸ hn) hn'
    · rw [if_neg hn]
      cases decode with
      | false =>
        simp only [Bool.false_eq_true, if_false]
        constructor
        · intro h
          exact absurd h (by simp)
        · rintro (⟨hno, _⟩ | ⟨n', v', hnv, hn', _⟩ | ⟨n', v', hnv, _, hdec, _, _⟩)
          · exact absurd hno (by simp)
          · rw [Option.some.injEq, Prod.mk.injEq] at hnv
            exact absurd (hnv.1 ▸ hn') hn
          · exact absurd hdec (by simp)
      | true =>
        simp only [if_true]
        rcases hdn : dec (trim n) with u | dn
        · constructor
          · intro h
            refine Or.inr (Or.inr ⟨n, v, rfl, hn, trivial, ?_, by cases h; rfl⟩)
            rintro ⟨dn, dv, hdn2, _⟩
            rw [hdn] at hdn2
            exact absurd hdn2 (by simp)
          · rintro (⟨hno, _⟩ | ⟨n', v', hnv, hn', _⟩ | ⟨n', v', hnv, _, _, _, he⟩)
            · exact absurd hno (by simp)
            · rw [Option.some.injEq, Prod.mk.injEq] at hnv
              exact absurd (hnv.1 ▸ hn') hn
            · subst he
              rcases dec (trim v) with u2 | dv2 <;> rfl
        · rcases hdv : dec (trim v) with u | dv
          · constructor
            · intro h
              refine Or.inr (Or.inr ⟨n, v, rfl, hn, trivial, ?_, by cases h; rfl⟩)
              rintro ⟨dn', dv', _, hdv2⟩
              rw [hdv] at hdv2
              exact absurd hdv2 (by simp)
            · rintro (⟨hno, _⟩ | ⟨n', v', hnv, hn', _⟩ | ⟨n', v', hnv, _, _, _, he⟩)
              · exact absurd hno (by simp)
              · rw [Option.some.injEq, Prod.mk.injEq] at hnv
                exact absurd (hnv.1 ▸ hn') hn
              · subst he
                rfl
          · constructor
            · intro h
              exact absurd h (by simp)
            · rintro (⟨hno, _⟩ | ⟨n', v', hnv, hn', _⟩ | ⟨n', v', hnv, _, _, hne, _⟩)
              · exact absurd hno (by simp)
              · rw [Option.some.injEq, Prod.mk.injEq] at hnv
                exact absurd (hnv.1 ▸ hn') hn
              · rw [Option.some.injEq, Prod.mk.injEq] at hnv
                exact absurd ⟨dn, dv, hnv.1 ▸ hdn, hnv.2 ▸ hdv⟩ hne

/-- C6: `parse_cookie` errors exactly when the first `;`-delimited segment
has no `=` (`MissingPair`), or the whitespace-trimmed text before that first
`=` is empty (`EmptyName`), or — in decoding mode — decoding the trimmed
name or value fails (`Utf8Error`); attribute tokens after the first segment
never cause a failure.  On success (non-decoding mode) the name is the
trimmed text before the first `=` of the first segment and the value the
trimmed text after it, so a value may itself contain further `=`. -/
theorem parse_error_taxonomy (dec : Decoder) (pd : DateParse) (decode : Bool)
    (s : List Char) (e : ParseError) :
    (parse_cookie dec pd decode s = .error e ↔
      (splitFirstEq ((splitSemi s).headD []) = Option.none ∧ e = .missingPair) ∨
      (∃ n v, splitFirstEq ((splitSemi s).headD []) = some (n, v) ∧
        trim n = [] ∧ e = .emptyName) ∨
      (∃ n v, splitFirstEq ((splitSemi s).headD []) = some (n, v) ∧
        trim n ≠ [] ∧ decode = true ∧
        (¬ ∃ dn dv, dec (trim n) = .ok dn ∧ dec (trim v) = .ok dv) ∧
        e = .utf8Error)) ∧
    (∀ n v c', splitFirstEq ((splitSemi s).headD []) = some (n, v) →
      parse_cookie dec pd false s = .ok c' →
      c'.name = trim n ∧ c'.value = trim v) := by
  refine ⟨parse_cookie_error_iff dec pd decode s e, ?_⟩
  intro n v c' hnv hok
  unfold parse_cookie parse_inner at hok
  simp only [hnv] at hok
  by_cases hn : trim n = []
  · rw [if_pos hn] at hok
    exact absurd hok (by simp)
  · rw [if_neg hn] at hok
    simp only [Bool.false_eq_true, if_false] at hok
    have hc : (splitSemi s).tail.foldl (processAttr pd)
        (Cookie.new (trim n) (trim v)) = c' := by
      exact Except.ok.inj hok
    rw [← hc, foldl_processAttr_name, foldl_processAttr_value]
    exact ⟨rfl, rfl⟩

/-- Witness for `parse_error_taxonomy`: an empty name yields `EmptyName`, and
`foo=bar=baz` splits at the first `=` only. -/
theorem parse_error_taxonomy_witness :
    parse_cookie decId pdNone false (" =bar".toList) = .error .emptyName ∧
    (Cookie.new ("foo".toList) ("bar=baz".toList)).name = trim ("foo".toList) := by
  constructor
  · exact (parse_error_taxonomy decId pdNone false (" =bar".toList)
      ParseError.emptyName).1.mpr
      (Or.inr (Or.inl ⟨[' '], "bar".toList, by decide, by decide, rfl⟩))
  · exact ((parse_error_taxonomy decId pdNone false ("foo=bar=baz".toList)
      ParseError.missingPair).2 ("foo".toList) ("bar=baz".toList)
      (Cookie.new ("foo".toList) ("bar=baz".toList)) (by decide) (by decide)).1

/-- Counterexample for C5: `Max-Age=abc` parses successfully but leaves
`max_age` unset (`None`), not set to the zero duration as the claim
states for a failed integer parse. -/
theorem max_age_nonnumeric_cex :
    (parse_cookie decId pdNone false ("foo=bar; Max-Age=abc".toList)).map
      (fun c => c.max_age) = .ok Option.none ∧
    (Option.none : Option Duration) ≠ some Duration.zero := by
  decide

/-- C5 (amended): for a `Max-Age=<v>` attribute token the parse never fails;
if `<v>` parses as an `i64` the max-age is the zero duration for values
`≤ 0` and the (clamped) value in seconds otherwise; if the `i64` parse fails,
then when the token after an optional leading `-` is all decimal digits the
max-age is zero (negative) or the maximum representable duration
(non-negative, including overflow), and otherwise the attribute is ignored,
leaving `max_age` unchanged. -/
theorem max_age_attr_spec (pd : DateParse) (c : Cookie) (k v : List Char)
    (hk : '=' ∉ k) (hkey : lowerAscii (trim k) = "max-age".toList) :
    ((parseI64 (trim v) = Option.none →
        ¬ ((if (trim v).head? = some '-' then (trim v).tail else trim v).all
            (fun d => d.isDigit) = true) →
      processAttr pd c (k ++ '=' :: v) = c) ∧
     (∀ n : Int, parseI64 (trim v) = some n → n ≤ 0 →
      processAttr pd c (k ++ '=' :: v) = { c with max_age := some Duration.zero }) ∧
     (∀ n : Int, parseI64 (trim v) = some n → 0 < n →
      processAttr pd c (k ++ '=' :: v) =
        { c with max_age := some (Duration.seconds (min n i64Max)) }) ∧
     (parseI64 (trim v) = Option.none → (trim v).head? = some '-' →
        (trim v).tail.all (fun d => d.isDigit) = true →
      processAttr pd c (k ++ '=' :: v) = { c with max_age := some Duration.zero }) ∧
     (parseI64 (trim v) = Option.none → ¬ (trim v).head? = some '-' →
        (trim v).all (fun d => d.isDigit) = true →
      processAttr pd c (k ++ '=' :: v) =
        { c with max_age := some (Duration.seconds i64Max) })) ∧
    (∀ (dec : Decoder) (pd' : DateParse) (s : List Char) (e : ParseError),
      parse_cookie dec pd' false s = .error e →
      splitFirstEq ((splitSemi s).headD []) = Option.none ∨
      (∃ n v', splitFirstEq ((splitSemi s).headD []) = some (n, v') ∧
        trim n = [])) := by
  have hred : ∀ x : Cookie, processAttr pd x (k ++ '=' :: v) =
      (match parseI64 (trim v) with
       | some val =>
         if val ≤ 0 then { x with max_age := some Duration.zero }
         else { x with max_age := some (Duration.seconds (min val i64Max)) }
       | Option.none =>
         if ¬ (((if (trim v).head? = some '-' then (trim v).tail else trim v)).all
             (fun d => d.isDigit)) = true then x
         else if ((trim v).head? = some '-') then
           { x with max_age := some Duration.zero }
         else { x with max_age := some (Duration.seconds i64Max) }) := by
    intro x
    unfold processAttr
    rw [splitFirstEq_eq k v hk]
    dsimp only
    rw [hkey]
    rw [if_neg (by decide), if_neg (by decide), if_pos rfl]
    rcases parseI64 (trim v) with _ | val
    · dsimp only
      split_ifs <;> first | rfl | simp_all
    · dsimp only
  refine ⟨⟨?_, ?_, ?_, ?_, ?_⟩, ?_⟩
  · intro hp hnd
    rw [hred c, hp]
    dsimp only
    rw [if_pos (by simpa using hnd)]
  · intro n hp hn
    rw [hred c, hp]
    dsimp only
    rw [if_pos hn]
  · intro n hp hn
    rw [hred c, hp]
    dsimp only
    rw [if_neg (by omega)]
  · intro hp hneg hdig
    rw [hred c, hp]
    dsimp only
    rw [if_neg (by simp [hneg, hdig]), if_pos hneg]
  · intro hp hneg hdig
    rw [hred c, hp]
    dsimp only
    rw [if_neg (by simp [hneg, hdig]), if_neg hneg]
  · intro dec pd' s e herr
    rcases (parse_cookie_error_iff dec pd' false s e).1 herr with
      ⟨hno, _⟩ | ⟨n, v', hnv, hn, _⟩ | ⟨_, _, _, _, hdec, _⟩
    · exact Or.inl hno
    · exact Or.inr ⟨n, v', hnv, hn⟩
    · exact absurd hdec (by simp)

/-- Witness for `max_age_attr_spec`: the `max-age` key with value `abc`
leaves the cookie unchanged, and with value `7` sets seven seconds. -/
theorem max_age_attr_spec_witness :
    processAttr pdNone (Cookie.new ("a".toList) ("b".toList))
      ("Max-Age".toList ++ '=' :: "abc".toList) =
      Cookie.new ("a".toList) ("b".toList) ∧
    processAttr pdNone (Cookie.new ("a".toList) ("b".toList))
      ("Max-Age".toList ++ '=' :: "7".toList) =
      { Cookie.new ("a".toList) ("b".toList) with
        max_age := some (Duration.seconds (min 7 i64Max)) } := by
  constructor
  · exact (max_age_attr_spec pdNone (Cookie.new ("a".toList) ("b".toList))
      ("Max-Age".toList) ("abc".toList) (by decide) (by decide)).1.1
      (by decide) (by decide)
  · exact (max_age_attr_spec pdNone (Cookie.new ("a".toList) ("b".toList))
      ("Max-Age".toList) ("7".toList) (by decide) (by decide)).1.2.2.1 7
      (by decide) (by decide)

lemma ne_secure_of_second (c2 : Char) (t : List Char) (h : c2 ≠ 'S') :
    (' ' :: c2 :: t) ≠ " Secure".toList := by
  intro he
  have h7 : " Secure".toList = ' ' :: 'S' :: "ecure".toList := rfl
  rw [h7] at he
  injection he with h1 h2
  injection h2 with h3 h4
  exact h h3

lemma ne_secure_of_long (pre x : List Char) (h : 7 < pre.length) :
    pre ++ x ≠ " Secure".toList := by
  intro he
  have := congrArg List.length he
  simp only [List.length_append] at this
  have h7 : (" Secure".toList).length = 7 := by decide
  omega

lemma mem_attrSegs (fd : Int → List Char) (c : Cookie) (seg : List Char) :
    seg ∈ attrSegs fd c ↔
      (c.http_only = some true ∧ seg = " HttpOnly".toList) ∨
      (∃ ss, c.same_site = some ss ∧ seg = " SameSite=".toList ++ ss.display) ∨
      (c.partitioned = some true ∧ seg = " Partitioned".toList) ∨
      ((c.secure = some true ∨ c.partitioned = some true ∨
          (c.secure = Option.none ∧ c.same_site = some SameSite.none)) ∧
        seg = " Secure".toList) ∨
      (∃ p, c.pathAcc = some p ∧ seg = " Path=".toList ++ p) ∨
      (∃ d, c.domainAcc = some d ∧ seg = " Domain=".toList ++ d) ∨
      (∃ dur, c.max_age = some dur ∧ seg = " Max-Age=".toList ++ intDigits dur.secs) ∨
      (∃ t, c.expires_datetime = some t ∧ seg = " Expires=".toList ++ fd t) := by
  unfold attrSegs
  simp only [List.mem_append]
  have e1 : seg ∈ httpChunk c.http_only ↔
      (c.http_only = some true ∧ seg = " HttpOnly".toList) := by
    unfold httpChunk
    split <;> simp_all
  have e2 : seg ∈ ssChunk c.same_site ↔
      (∃ ss, c.same_site = some ss ∧ seg = " SameSite=".toList ++ ss.display) := by
    unfold ssChunk
    rcases c.same_site with _ | ss <;> simp
  have e3 : seg ∈ partChunk c.partitioned ↔
      (c.partitioned = some true ∧ seg = " Partitioned".toList) := by
    unfold partChunk
    split <;> simp_all
  have e4 : seg ∈ secureChunk (c.secure = some true ∨ c.partitioned = some true ∨
        (c.secure = Option.none ∧ c.same_site = some SameSite.none)) ↔
      ((c.secure = some true ∨ c.partitioned = some true ∨
          (c.secure = Option.none ∧ c.same_site = some SameSite.none)) ∧
        seg = " Secure".toList) := by
    unfold secureChunk
    split <;> simp_all
  have e5 : seg ∈ pathChunk c.pathAcc ↔
      (∃ p, c.pathAcc = some p ∧ seg = " Path=".toList ++ p) := by
    unfold pathChunk
    rcases c.pathAcc with _ | p <;> simp
  have e6 : seg ∈ domainChunk c.domainAcc ↔
      (∃ d, c.domainAcc = some d ∧ seg = " Domain=".toList ++ d) := by
    unfold domainChunk
    rcases c.domainAcc with _ | d <;> simp
  have e7 : seg ∈ maChunk c.max_age ↔
      (∃ dur, c.max_age = some dur ∧ seg = " Max-Age=".toList ++ intDigits dur.secs) := by
    unfold maChunk
    rcases c.max_age with _ | dur <;> simp
  have e8 : seg ∈ expChunk fd c.expires_datetime ↔
      (∃ t, c.expires_datetime = some t ∧ seg = " Expires=".toList ++ fd t) := by
    unfold expChunk
    rcases c.expires_datetime with _ | t <;> simp
  rw [e1, e2, e3, e4, e5, e6, e7, e8]
  simp only [or_assoc]

lemma semi_not_mem_natDigits (n : Nat) : ';' ∉ natDigits n :=
  not_mem_natDigits_of_not_digit ';' n (by decide)

lemma semi_not_mem_intDigits (n : Int) : ';' ∉ intDigits n := by
  unfold intDigits
  split
  · intro hm
    rcases List.mem_cons.1 hm with he | hm2
    · exact absurd he (by decide)
    · exact semi_not_mem_natDigits _ hm2
  · exact semi_not_mem_natDigits _

lemma attrSegs_no_semi (fd : Int → List Char) (c : Cookie)
    (hpath : ∀ p, c.path = some p → ';' ∉ p)
    (hdom : ∀ d, c.domain = some d → ';' ∉ d)
    (hfd : ∀ t, c.expires_datetime = some t → ';' ∉ fd t) :
    ∀ seg ∈ attrSegs fd c, ';' ∉ seg := by
  intro seg hseg
  rcases (mem_attrSegs fd c seg).1 hseg with
    ⟨_, he⟩ | ⟨ss, _, he⟩ | ⟨_, he⟩ | ⟨_, he⟩ | ⟨p, hp, he⟩ | ⟨d, hd, he⟩ |
    ⟨dur, _, he⟩ | ⟨t, ht, he⟩ <;> subst he
  · decide
  · intro hm
    rcases List.mem_append.1 hm with hm2 | hm2
    · exact absurd hm2 (by decide)
    · cases ss <;> revert hm2 <;> decide
  · decide
  · decide
  · intro hm
    rcases List.mem_append.1 hm with hm2 | hm2
    · exact absurd hm2 (by decide)
    · exact hpath p hp hm2
  · intro hm
    rcases List.mem_append.1 hm with hm2 | hm2
    · exact absurd hm2 (by decide)
    · unfold Cookie.domainAcc at hd
      rcases hdo : c.domain with _ | d0
      · rw [hdo] at hd
        exact absurd hd (by simp)
      · rw [hdo] at hd
        have hd' : (if d0.head? = some '.' then d0.tail else d0) = d := by
          simpa using hd
        have hnd : ';' ∉ d0 := hdom d0 hdo
        by_cases hdot : d0.head? = some '.'
        · rw [if_pos hdot] at hd'
          subst hd'
          exact hnd (List.mem_of_mem_tail hm2)
        · rw [if_neg hdot] at hd'
          subst hd'
          exact hnd hm2
  · intro hm
    rcases List.mem_append.1 hm with hm2 | hm2
    · exact absurd hm2 (by decide)
    · exact semi_not_mem_intDigits _ hm2
  · intro hm
    rcases List.mem_append.1 hm with hm2 | hm2
    · exact absurd hm2 (by decide)
    · exact hfd t ht hm2

/-- Counterexample for C7: with `secure` explicitly set to `false` and
`partitioned` set to `true`, the formatter still renders `; Secure` — the
code's own `format` test asserts exactly this output — contradicting the
claim that an explicit `secure = false` suppresses the Secure segment when
Partitioned is present. -/
theorem secure_partitioned_cex :
    Cookie.to_string fdNone
      { Cookie.new ("foo".toList) ("bar".toList) with
        secure := some false, partitioned := some true } =
      "foo=bar; Partitioned; Secure".toList ∧
    " Secure".toList ∈ splitSemi (Cookie.fmt_parameters fdNone
      { Cookie.new ("foo".toList) ("bar".toList) with
        secure := some false, partitioned := some true }) := by
  decide

/-- C7 (amended): the rendered parameter string contains a `;`-delimited
` Secure` segment exactly when `secure` is explicitly true, or `partitioned`
is true, or `secure` is unset while `same_site` is `SameSite::None`; an
explicit `secure = false` therefore suppresses the Secure segment for the
SameSite=None implication only — when Partitioned is present the segment is
rendered regardless. -/
theorem secure_render_iff (fd : Int → List Char) (c : Cookie)
    (hpath : ∀ p, c.path = some p → ';' ∉ p)
    (hdom : ∀ d, c.domain = some d → ';' ∉ d)
    (hfd : ∀ t, c.expires_datetime = some t → ';' ∉ fd t) :
    (" Secure".toList ∈ splitSemi (Cookie.fmt_parameters fd c) ↔
      (c.secure = some true ∨ c.partitioned = some true ∨
        (c.secure = Option.none ∧ c.same_site = some SameSite.none))) ∧
    (c.partitioned = some true →
      " Secure".toList ∈ splitSemi (Cookie.fmt_parameters fd c)) := by
  have hsplit : splitSemi (Cookie.fmt_parameters fd c) = [] :: attrSegs fd c := by
    unfold Cookie.fmt_parameters
    exact splitSemi_flatten _ (attrSegs_no_semi fd c hpath hdom hfd)
  have hmain : " Secure".toList ∈ splitSemi (Cookie.fmt_parameters fd c) ↔
      (c.secure = some true ∨ c.partitioned = some true ∨
        (c.secure = Option.none ∧ c.same_site = some SameSite.none)) := by
    rw [hsplit]
    constructor
    · intro hm
      rcases List.mem_cons.1 hm with he | hm2
      · exact absurd he (by decide)
      · rcases (mem_attrSegs fd c _).1 hm2 with
          ⟨_, he⟩ | ⟨ss, _, he⟩ | ⟨_, he⟩ | ⟨hcond, _⟩ | ⟨p, _, he⟩ |
          ⟨d, _, he⟩ | ⟨dur, _, he⟩ | ⟨t, _, he⟩
        · exact absurd he (by decide)
        · exact absurd he.symm (ne_secure_of_long (" SameSite=".toList) ss.display
            (by decide))
        · exact absurd he (by decide)
        · exact hcond
        · have hne : " Path=".toList ++ p = ' ' :: 'P' :: ("ath=".toList ++ p) := rfl
          rw [hne] at he
          exact absurd he.symm (ne_secure_of_second 'P' _ (by decide))
        · have hne : " Domain=".toList ++ d = ' ' :: 'D' :: ("omain=".toList ++ d) := rfl
          rw [hne] at he
          exact absurd he.symm (ne_secure_of_second 'D' _ (by decide))
        · exact absurd he.symm (ne_secure_of_long (" Max-Age=".toList) _ (by decide))
        · exact absurd he.symm (ne_secure_of_long (" Expires=".toList) _ (by decide))
    · intro hcond
      exact List.mem_cons_of_mem _
        ((mem_attrSegs fd c _).2 (Or.inr (Or.inr (Or.inr (Or.inl ⟨hcond, rfl⟩)))))
  exact ⟨hmain, fun hp => hmain.2 (Or.inr (Or.inl hp))⟩

/-- Witness for `secure_render_iff`: a concrete cookie with an explicit
`Secure` flag and a path renders the ` Secure` segment. -/
theorem secure_render_iff_witness :
    " Secure".toList ∈ splitSemi (Cookie.fmt_parameters fdNone
      { Cookie.new ("a".toList) ("b".toList) with
        secure := some true, path := some ("/".toList) }) := by
  exact (secure_render_iff fdNone
    { Cookie.new ("a".toList) ("b".toList) with
      secure := some true, path := some ("/".toList) }
    (fun p hp => by
      have h := Option.some.inj hp
      subst h
      decide)
    (fun d hd => by simp [Cookie.new] at hd)
    (fun t ht => by simp [Cookie.new, Cookie.expires_datetime] at ht)).1.mpr
    (Or.inl rfl)

lemma processAttr_httponly (pd : DateParse) (x : Cookie) :
    processAttr pd x (" HttpOnly".toList) = { x with http_only := some true } := rfl

lemma processAttr_samesite_strict (pd : DateParse) (x : Cookie) :
    processAttr pd x (" SameSite=Strict".toList) =
      { x with same_site := some SameSite.strict } := rfl

lemma processAttr_samesite_lax (pd : DateParse) (x : Cookie) :
    processAttr pd x (" SameSite=Lax".toList) =
      { x with same_site := some SameSite.lax } := rfl

lemma processAttr_secure_seg (pd : DateParse) (x : Cookie) :
    processAttr pd x (" Secure".toList) = { x with secure := some true } := rfl

lemma processAttr_path_seg (pd : DateParse) (x : Cookie) (p : List Char)
    (hp : trim p = p) :
    processAttr pd x (" Path=".toList ++ p) = { x with path := some p } := by
  unfold processAttr
  have hsp : splitFirstEq (" Path=".toList ++ p) = some (" Path".toList, p) := by
    have he : " Path=".toList ++ p = " Path".toList ++ '=' :: p := rfl
    rw [he]
    exact splitFirstEq_eq _ _ (by decide)
  rw [hsp]
  dsimp only
  rw [show trim (" Path".toList) = "Path".toList from by decide]
  rw [show lowerAscii ("Path".toList) = "path".toList from by decide]
  rw [if_neg (by decide), if_neg (by decide), if_neg (by decide),
    if_neg (by decide), if_pos rfl, hp]

lemma processAttr_domain_seg (pd : DateParse) (x : Cookie) (d : List Char)
    (hd : trim d = d) (hne : d ≠ []) (hdot : d.head? ≠ some '.') :
    processAttr pd x (" Domain=".toList ++ d) = { x with domain := some d } := by
  unfold processAttr
  have hsp : splitFirstEq (" Domain=".toList ++ d) = some (" Domain".toList, d) := by
    have he : " Domain=".toList ++ d = " Domain".toList ++ '=' :: d := rfl
    rw [he]
    exact splitFirstEq_eq _ _ (by decide)
  rw [hsp]
  dsimp only
  rw [show trim (" Domain".toList) = "Domain".toList from by decide]
  rw [show lowerAscii ("Domain".toList) = "domain".toList from by decide]
  rw [if_neg (by decide), if_neg (by decide), if_neg (by decide), if_pos rfl, hd]
  rw [if_neg hne, if_neg hdot]

lemma processAttr_maxage_seg (pd : DateParse) (x : Cookie) (s : Int)
    (h0 : 0 ≤ s) (hmax : s ≤ i64Max) :
    processAttr pd x (" Max-Age=".toList ++ intDigits s) =
      { x with max_age := some (Duration.seconds s) } := by
  unfold processAttr
  have hsp : splitFirstEq (" Max-Age=".toList ++ intDigits s) =
      some (" Max-Age".toList, intDigits s) := by
    have he : " Max-Age=".toList ++ intDigits s =
        " Max-Age".toList ++ '=' :: intDigits s := rfl
    rw [he]
    exact splitFirstEq_eq _ _ (by decide)
  rw [hsp]
  dsimp only
  rw [show trim (" Max-Age".toList) = "Max-Age".toList from by decide]
  rw [show lowerAscii ("Max-Age".toList) = "max-age".toList from by decide]
  rw [if_neg (by decide), if_neg (by decide), if_pos rfl]
  have hid : intDigits s = natDigits s.natAbs := by
    unfold intDigits
    rw [if_neg (by omega)]
  have hcast : ((s.natAbs : Nat) : Int) = s := Int.natAbs_of_nonneg h0
  have hpp : parseI64 (trim (intDigits s)) = some s := by
    rw [hid, trim_natDigits, parseI64_natDigits s.natAbs (by rw [hcast]; exact hmax),
      hcast]
  rw [hpp]
  dsimp only
  by_cases hz : s ≤ 0
  · rw [if_pos hz]
    have hs0 : s = 0 := le_antisymm hz h0
    subst hs0
    rfl
  · rw [if_neg hz]
    rw [min_eq_left hmax]

lemma fold_chunk_http (pd : DateParse) (o : Option Bool) (x : Cookie) :
    List.foldl (processAttr pd) x (httpChunk o) =
      { x with http_only := if o = some true then some true else x.http_only } := by
  unfold httpChunk
  by_cases h : o = some true
  · rw [if_pos h, if_pos h]
    rw [List.foldl_cons, List.foldl_nil, processAttr_httponly]
  · rw [if_neg h, if_neg h]
    rfl

lemma fold_chunk_ss (pd : DateParse) (o : Option SameSite)
    (ho : o = Option.none ∨ o = some SameSite.strict ∨ o = some SameSite.lax)
    (x : Cookie) :
    List.foldl (processAttr pd) x (ssChunk o) =
      { x with same_site :=
          if o = some SameSite.strict then some SameSite.strict
          else if o = some SameSite.lax then some SameSite.lax
          else x.same_site } := by
  unfold ssChunk
  rcases ho with h | h | h <;> subst h
  · simp
  · dsimp only
    have he : " SameSite=".toList ++ SameSite.strict.display =
        " SameSite=Strict".toList := rfl
    rw [he, List.foldl_cons, List.foldl_nil, processAttr_samesite_strict,
      if_pos rfl]
  · dsimp only
    have he : " SameSite=".toList ++ SameSite.lax.display =
        " SameSite=Lax".toList := rfl
    rw [he, List.foldl_cons, List.foldl_nil, processAttr_samesite_lax,
      if_neg (by simp), if_pos rfl]

lemma fold_chunk_secure (pd : DateParse) (b : Prop) [Decidable b] (x : Cookie) :
    List.foldl (processAttr pd) x (secureChunk b) =
      { x with secure := if b then some true else x.secure } := by
  unfold secureChunk
  by_cases h : b
  · rw [if_pos h, if_pos h]
    rw [List.foldl_cons, List.foldl_nil, processAttr_secure_seg]
  · rw [if_neg h, if_neg h]
    rfl

lemma fold_chunk_path (pd : DateParse) (o : Option (List Char))
    (ho : ∀ p, o = some p → trim p = p) (x : Cookie) :
    List.foldl (processAttr pd) x (pathChunk o) =
      { x with path := o.or x.path } := by
  unfold pathChunk
  rcases o with _ | p
  · rfl
  · dsimp only
    rw [List.foldl_cons, List.foldl_nil, processAttr_path_seg pd x p (ho p rfl)]
    rfl

lemma fold_chunk_domain (pd : DateParse) (o : Option (List Char))
    (ho : ∀ d, o = some d → trim d = d ∧ d ≠ [] ∧ d.head? ≠ some '.')
    (x : Cookie) :
    List.foldl (processAttr pd) x (domainChunk o) =
      { x with domain := o.or x.domain } := by
  unfold domainChunk
  rcases o with _ | d
  · rfl
  · obtain ⟨h1, h2, h3⟩ := ho d rfl
    dsimp only
    rw [List.foldl_cons, List.foldl_nil, processAttr_domain_seg pd x d h1 h2 h3]
    rfl

lemma fold_chunk_maxage (pd : DateParse) (o : Option Duration)
    (ho : ∀ dur, o = some dur → dur.nanos = 0 ∧ 0 ≤ dur.secs ∧ dur.secs ≤ i64Max)
    (x : Cookie) :
    List.foldl (processAttr pd) x (maChunk o) =
      { x with max_age := o.or x.max_age } := by
  unfold maChunk
  rcases o with _ | dur
  · rfl
  · obtain ⟨h1, h2, h3⟩ := ho dur rfl
    dsimp only
    rw [List.foldl_cons, List.foldl_nil, processAttr_maxage_seg pd x dur.secs h2 h3]
    rcases dur with ⟨secs, nanos⟩
    simp only at h1
    subst h1
    rfl


/-- The comparison demanded by the round-trip claim: equality of name,
value, and every attribute, with path and domain compared through their
accessors, ASCII-case-insensitively. -/
def claimEq (a b : Cookie) : Prop :=
  a.name = b.name ∧ a.value = b.value ∧ a.secure = b.secure ∧
  a.http_only = b.http_only ∧ a.partitioned = b.partitioned ∧
  a.same_site = b.same_site ∧ a.max_age = b.max_age ∧ a.expires = b.expires ∧
  (match a.pathAcc, b.pathAcc with
   | some x, some y => eqIgnoreAsciiCase x y = true
   | Option.none, Option.none => True
   | _, _ => False) ∧
  (match a.domainAcc, b.domainAcc with
   | some x, some y => eqIgnoreAsciiCase x y = true
   | Option.none, Option.none => True
   | _, _ => False)

/-- Counterexample for C1: a cookie built by `Cookie::new` plus
`set_partitioned(true)` renders as `a=b; Partitioned; Secure`, but the
parser of this crate does not recognize `Partitioned`, so the re-parsed
cookie has `partitioned = None` (and `secure = Some(true)` instead of the
original unset `secure`): the round trip loses set attributes. -/
theorem roundtrip_cex :
    (parse_cookie decId pdNone false (Cookie.to_string fdNone
      { Cookie.new ("a".toList) ("b".toList) with partitioned := some true })).map
      (fun c => (c.partitioned, c.secure)) = .ok (Option.none, some true) ∧
    ({ Cookie.new ("a".toList) ("b".toList) with
        partitioned := some true }).partitioned = some true ∧
    ({ Cookie.new ("a".toList) ("b".toList) with
        partitioned := some true }).secure = Option.none := by
  decide

/-- C1 (amended): round-trip stability holds for cookies whose set
attributes lie in the fragment this crate's parser understands: name/value
(and path/domain) trim-invariant, `;`-free strings, the name `=`-free and
non-empty, `secure`/`http_only` unset or explicitly true (an explicit
`false` does not survive, as nothing is rendered for it), `partitioned`
unset (the parser has no `Partitioned` arm), `same_site` unset or
`Strict`/`Lax` (`SameSite::None` renders but is not parsed back), `expires`
unset, max-age a whole non-negative number of seconds, and the dot-stripped
domain non-empty without a further leading dot.  For such cookies
`parse(c.to_string())` succeeds and agrees with `c` on name, value, and
every attribute, path and domain compared case-insensitively through their
accessors. -/
theorem roundtrip_amended (dec : Decoder) (pd : DateParse)
    (fd : Int → List Char) (c : Cookie)
    (hname1 : trim c.name = c.name) (hname2 : c.name ≠ [])
    (hname3 : ';' ∉ c.name) (hname4 : '=' ∉ c.name)
    (hval1 : trim c.value = c.value) (hval2 : ';' ∉ c.value)
    (hsec : c.secure = Option.none ∨ c.secure = some true)
    (hhttp : c.http_only = Option.none ∨ c.http_only = some true)
    (hpart : c.partitioned = Option.none)
    (hss : c.same_site = Option.none ∨ c.same_site = some SameSite.strict ∨
      c.same_site = some SameSite.lax)
    (hexp : c.expires = Option.none)
    (hma : ∀ dur, c.max_age = some dur →
      dur.nanos = 0 ∧ 0 ≤ dur.secs ∧ dur.secs ≤ i64Max)
    (hpath : ∀ p, c.path = some p → trim p = p ∧ ';' ∉ p)
    (hdom : ∀ d, c.domainAcc = some d →
      trim d = d ∧ ';' ∉ d ∧ d ≠ [] ∧ d.head? ≠ some '.') :
    ∃ c', parse_cookie dec pd false (Cookie.to_string fd c) = .ok c' ∧
      claimEq c c' := by
  have hfd0 : c.expires_datetime = Option.none := by
    simp [Cookie.expires_datetime, hexp]
  have hdomraw : ∀ d0, c.domain = some d0 → ';' ∉ d0 := by
    intro d0 hd0
    have hacc : c.domainAcc =
        some (if d0.head? = some '.' then d0.tail else d0) := by
      simp [Cookie.domainAcc, hd0]
    obtain ⟨_, hsd, _, _⟩ := hdom _ hacc
    by_cases hdot : d0.head? = some '.'
    · rw [if_pos hdot] at hsd
      rcases d0 with _ | ⟨c0, t⟩
      · simp
      · have hc0 : c0 = '.' := by simpa using hdot
        subst hc0
        intro hm
        rcases List.mem_cons.1 hm with he | hm2
        · exact absurd he (by decide)
        · exact hsd hm2
    · rw [if_neg hdot] at hsd
      exact hsd
  have hnosemi : ∀ seg ∈ attrSegs fd c, ';' ∉ seg :=
    attrSegs_no_semi fd c (fun p hp => (hpath p hp).2) hdomraw
      (fun t ht => absurd (hfd0 ▸ ht) (by simp))
  have hkvsemi : ';' ∉ c.name ++ '=' :: c.value := by
    intro hm
    rcases List.mem_append.1 hm with hm2 | hm2
    · exact hname3 hm2
    · rcases List.mem_cons.1 hm2 with he | hm3
      · exact absurd he (by decide)
      · exact hval2 hm3
  have hsplit : splitSemi (Cookie.to_string fd c) =
      (c.name ++ '=' :: c.value) :: attrSegs fd c := by
    have hassoc : Cookie.to_string fd c =
        (c.name ++ '=' :: c.value) ++ Cookie.fmt_parameters fd c := by
      unfold Cookie.to_string
      simp
    have hflat : splitSemi (Cookie.fmt_parameters fd c) = [] :: attrSegs fd c := by
      unfold Cookie.fmt_parameters
      exact splitSemi_flatten _ hnosemi
    rw [hassoc, splitSemi_append _ _ hkvsemi, hflat]
    simp
  have hparse : parse_cookie dec pd false (Cookie.to_string fd c) =
      .ok ((attrSegs fd c).foldl (processAttr pd) (Cookie.new c.name c.value)) := by
    unfold parse_cookie parse_inner
    simp only [hsplit, List.headD_cons, List.tail_cons]
    rw [splitFirstEq_eq _ _ hname4]
    dsimp only
    rw [hname1, hval1, if_neg hname2]
    rfl
  refine ⟨_, hparse, ?_⟩
  unfold attrSegs
  simp only [List.foldl_append]
  rw [fold_chunk_http pd c.http_only]
  rw [fold_chunk_ss pd c.same_site hss]
  rw [hpart, show partChunk (Option.none : Option Bool) = ([] : List (List Char))
    from rfl, List.foldl_nil]
  rw [fold_chunk_secure pd _]
  rw [fold_chunk_path pd c.pathAcc (fun p hp => (hpath p hp).1)]
  rw [fold_chunk_domain pd c.domainAcc
    (fun d hd => ⟨(hdom d hd).1, (hdom d hd).2.2.1, (hdom d hd).2.2.2⟩)]
  rw [fold_chunk_maxage pd c.max_age hma]
  rw [hfd0, show expChunk fd (Option.none : Option Int) = ([] : List (List Char))
    from rfl, List.foldl_nil]
  unfold claimEq
  dsimp only [Cookie.new]
  refine ⟨rfl, rfl, ?_, ?_, ?_, ?_, ?_, ?_, ?_, ?_⟩
  · rcases hsec with h | h
    · rw [if_neg ?hc]
      · exact h
      case hc =>
        rintro (h1 | h1 | ⟨_, h2⟩)
        · rw [h] at h1
          exact absurd h1 (by simp)
        · exact absurd h1 (by simp)
        · rcases hss with h3 | h3 | h3 <;> rw [h3] at h2 <;>
            exact absurd h2 (by simp)
    · rw [if_pos (Or.inl h)]
      exact h
  · rcases hhttp with h | h
    · rw [h, if_neg (by simp)]
    · rw [h, if_pos rfl]
  · exact hpart
  · rcases hss with h | h | h
    · rw [h, if_neg (by simp), if_neg (by simp)]
    · rw [h, if_pos rfl]
    · rw [h, if_neg (by simp), if_pos rfl]
  · exact Eq.symm Option.or_none
  · exact hexp
  · unfold Cookie.pathAcc
    rcases hpc : c.path with _ | p
    · simp [hpc, Option.or_none]
    · simp only [hpc, Option.or_none]
      simp [eqIgnoreAsciiCase]
  · rcases hdc : c.domain with _ | d0
    · have h1 : c.domainAcc = Option.none := by simp [Cookie.domainAcc, hdc]
      simp [Cookie.domainAcc, h1, Option.or_none, hdc]
    · have h1 : c.domainAcc =
          some (if d0.head? = some '.' then d0.tail else d0) := by
        simp [Cookie.domainAcc, hdc]
      obtain ⟨_, _, _, hdot⟩ := hdom _ h1
      rw [h1]
      simp only [Option.or_none]
      simp [Cookie.domainAcc, if_neg hdot, eqIgnoreAsciiCase]

/-- Concrete cookie used to exercise the round-trip theorem: every attribute
in the parseable fragment is set. -/
def rtCookie : Cookie :=
  { Cookie.new ("Na".toList) ("V".toList) with
    secure := some true, http_only := some true,
    same_site := some SameSite.lax, path := some ("/a".toList),
    domain := some ("Ex.com".toList), max_age := some ⟨5, 0⟩ }

/-- Witness for `roundtrip_amended` at `rtCookie`: the rendered string
re-parses to an equal cookie. -/
theorem roundtrip_amended_witness :
    parse_cookie decId pdNone false (Cookie.to_string fdNone rtCookie) =
      .ok rtCookie ∧ claimEq rtCookie rtCookie := by
  obtain ⟨c', hp, hc⟩ := roundtrip_amended decId pdNone fdNone rtCookie
    (by decide) (by decide) (by decide) (by decide) (by decide) (by decide)
    (Or.inr rfl) (Or.inr rfl) rfl (Or.inr (Or.inr rfl)) rfl
    (by
      intro dur h
      have h2 := Option.some.inj h
      subst h2
      exact ⟨rfl, by decide, by decide⟩)
    (by
      intro p h
      have h2 := Option.some.inj h
      subst h2
      exact ⟨by decide, by decide⟩)
    (by
      intro d h
      have hacc : rtCookie.domainAcc = some ("Ex.com".toList) := by decide
      rw [hacc] at h
      have h2 := Option.some.inj h
      subst h2
      exact ⟨by decide, by decide, by decide, by decide⟩)
  have hpc : parse_cookie decId pdNone false (Cookie.to_string fdNone rtCookie) =
      .ok rtCookie := by decide
  have he : c' = rtCookie := by
    rw [hp] at hpc
    exact Except.ok.inj hpc
  exact ⟨hpc, he ▸ hc⟩
